import Mathlib

/-!
# frand: a buffered ChaCha generator and its sampling layer

A shallow embedding of `frand.go` (package `frand`).

* Go byte slices are `List UInt8`; a slice made by `make` has capacity equal
  to its length, so a slice expression `s[lo:hi]` is in range exactly when
  `lo ≤ hi ≤ s.length`.
* The generator `*RNG` is passed explicitly: every method takes the state and
  gives back the outcome of the call together with the state it leaves behind,
  also when the call panics.
* Go's `uint64` is a `Nat` below `2 ^ 64`, Go's `int` an `Int` in
  `[-2 ^ 63, 2 ^ 63)`; the two conversions are `uint64` and `int` below. The
  cursor `RNG.n` and the loop counters only hold lengths and sums of lengths
  and are `Nat`. Memory is unbounded: `make` fails only on a length that is
  negative, as written or after the `int` sum giving it has wrapped around.
* The two unbounded loops of the source (`for n < len(b)` in `Read`, and
  `goto again` in `Uint64n`) take a fuel argument; running out of fuel is the
  outcome `Fault.outOfFuel`, which is no outcome of the Go program.
* The stream cipher (`github.com/aead/chacha20/chacha`) is a collaborator
  outside the repository. It enters as a parameter `ks : Keystream`.
-/

namespace frand

/-! ## Outcomes -/

/-- The ways a call can end without returning. -/
inductive Fault where
  /-- An explicit `panic(msg)` of `Uint64n` or `Intn`. -/
  | invalidArgument (msg : String)
  /-- The run-time panic of an index or slice expression out of range. -/
  | outOfRange
  /-- The panic of `chacha.XORKeyStream` on a round count other than 8, 12, 20. -/
  | badRounds
  /-- The run-time panic of `make` with a negative length (`len out of range`). -/
  | negativeLen
  /-- The loop was still running when the fuel ran out. -/
  | outOfFuel
  deriving DecidableEq, Repr

deriving instance DecidableEq for Except

/-! ## The cipher -/

/-- The cipher as a keystream: `ks key nonce rounds i` is byte `i` of the
stream generated under `key`, `nonce` and `rounds`. -/
abbrev Keystream := List UInt8 → List UInt8 → Int → Nat → UInt8

/-- Key width of the cipher in bytes, `chacha.KeySize`. -/
def KeySize : Nat := 32

/-- Nonce width in bytes, `chacha.NonceSize`. -/
def NonceSize : Nat := 8

/-- The nonce `make([]byte, chacha.NonceSize)`: all zero. -/
def zeroNonce : List UInt8 := List.replicate NonceSize 0

/-- The first `len` bytes of the keystream. -/
def keystream (ks : Keystream) (key nonce : List UInt8) (rounds : Int) (len : Nat) :
    List UInt8 :=
  (List.range len).map (ks key nonce rounds)

/-- Modelled from the spec: `chacha.XORKeyStream(dst, src, nonce, key, rounds)`
of the external cipher package, called with `dst` and `src` the same slice.
It XORs `src` with the keystream of `key` and `nonce` and gives the new
contents of `dst`; the key is read before anything is written. It panics
when `rounds` is not 8, 12 or 20. -/
def chacha.XORKeyStream (ks : Keystream) (src nonce key : List UInt8) (rounds : Int) :
    Except Fault (List UInt8) :=
  if rounds ≠ 20 ∧ rounds ≠ 12 ∧ rounds ≠ 8 then .error .badRounds
  else .ok (List.zipWith (fun x k => x ^^^ k) src (keystream ks key nonce rounds src.length))

/-! ## The generator -/

/-- The struct `RNG`: buffer, cursor `n`, round count. -/
structure RNG where
  buf : List UInt8
  n : Nat
  rounds : Int
  deriving DecidableEq, Repr

/-- The buffer after `erase(buf[lo:hi])`: the bytes at `lo ≤ i < hi` set to 0. -/
def erase (buf : List UInt8) (lo hi : Nat) : List UInt8 :=
  buf.take lo ++ List.replicate (hi - lo) 0 ++ buf.drop hi

/-- The destination after `copy(b[n:], src)`, and the number of bytes copied. -/
def copyAt (b : List UInt8) (n : Nat) (src : List UInt8) : List UInt8 × Nat :=
  let c := min (b.length - n) src.length
  (b.take n ++ src.take c ++ b.drop (n + c), c)

/-- Method `reseed`: the whole buffer is XORed with the keystream of its own
first `KeySize` bytes, and the cursor is set to `KeySize`. -/
def RNG.reseed (ks : Keystream) (r : RNG) : Except Fault Unit × RNG :=
  if r.buf.length < KeySize then (.error .outOfRange, r)
  else
    match chacha.XORKeyStream ks r.buf zeroNonce (r.buf.take KeySize) r.rounds with
    | .error e => (.error e, r)
    | .ok out => (.ok (), { r with buf := out, n := KeySize })

/-- The loop `for n < len(b)` of `Read`, small-request path. -/
def RNG.Read.loop (ks : Keystream) :
    Nat → RNG → List UInt8 → Nat → Except Fault (List UInt8) × RNG
  | fuel, r, b, n =>
    if n < b.length then
      match fuel with
      | 0 => (.error .outOfFuel, r)
      | fuel + 1 =>
        match (if r.n = r.buf.length then r.reseed ks else (.ok (), r)) with
        | (.error e, r1) => (.error e, r1)
        | (.ok _, r1) =>
          if r1.buf.length < r1.n then (.error .outOfRange, r1)
          else
            let (b1, c) := copyAt b n (r1.buf.drop r1.n)
            RNG.Read.loop ks fuel
              { r1 with buf := erase r1.buf r1.n (r1.n + c), n := r1.n + c } b1 (n + c)
    else (.ok b, r)

/-- Method `Read`. The value returned is the destination as `Read` leaves it
together with the count `len(b)`; the `error` result of the Go method is the
constant `nil` at both `return` statements and is not carried. -/
def RNG.Read (ks : Keystream) (fuel : Nat) (r : RNG) (b : List UInt8) :
    Except Fault (List UInt8 × Nat) × RNG :=
  if r.buf.length < b.length then
    match r.reseed ks with
    | (.error e, r1) => (.error e, r1)
    | (.ok _, r1) =>
      if r1.buf.length < r1.n + KeySize then (.error .outOfRange, r1)
      else
        let tmpKey := (r1.buf.drop r1.n).take KeySize
        match chacha.XORKeyStream ks b zeroNonce tmpKey r1.rounds with
        | .error e => (.error e, r1)
        | .ok b1 =>
          (.ok (b1, b.length),
            { r1 with buf := erase r1.buf r1.n (r1.n + KeySize), n := r1.n + tmpKey.length })
  else
    match RNG.Read.loop ks fuel r b 0 with
    | (.error e, r1) => (.error e, r1)
    | (.ok b1, r1) => (.ok (b1, b.length), r1)

/-- The constant `math.MaxInt64`, the largest `int`. -/
def MaxInt64 : Int := 2 ^ 63 - 1

/-- Function `NewCustom`. The length `chacha.KeySize+bufsize` is an `int`: when
the sum exceeds `MaxInt64` it wraps around to a negative number, and `make`
panics on it as on any negative length. -/
def NewCustom (ks : Keystream) (seed : List UInt8) (bufsize rounds : Int) :
    Except Fault RNG :=
  if (KeySize : Int) + bufsize < 0 ∨ MaxInt64 < (KeySize : Int) + bufsize then
    .error .negativeLen
  else
    let buf0 : List UInt8 := List.replicate ((KeySize : Int) + bufsize).toNat 0
    let r : RNG := { buf := (copyAt buf0 0 seed).1, n := 0, rounds := rounds }
    match r.reseed ks with
    | (.error e, _) => .error e
    | (.ok _, r1) => .ok r1

/-! ## The sampling layer -/

/-- The constant `math.MaxUint64`. -/
def MaxUint64 : Nat := 2 ^ 64 - 1

/-- The conversion `uint64(n)` of an `int`. -/
def uint64 (n : Int) : Nat := (n % 2 ^ 64).toNat

/-- The conversion `int(v)` of a `uint64`. -/
def int (v : Nat) : Int := if v < 2 ^ 63 then (v : Int) else (v : Int) - 2 ^ 64

/-- The function `binary.LittleEndian.Uint64` on the first 8 bytes of `b`:
byte `k` has weight `256 ^ k`. -/
def LittleEndian.Uint64 (b : List UInt8) : Nat :=
  (b.take 8).foldr (fun x acc => x.toNat + 256 * acc) 0

/-- The rejection threshold of `Uint64n`, line 77:
`max := math.MaxUint64 - math.MaxUint64%n`. -/
def Uint64n.max (n : Nat) : Nat := MaxUint64 - MaxUint64 % n

/-- Lines 82-85 of `Uint64n` on a draw `i`: `none` when the draw is discarded
(`i >= max`, `goto again`), else the value returned, `i % n`. -/
def Uint64n.accept (n i : Nat) : Option Nat :=
  if Uint64n.max n ≤ i then none else some (i % n)

/-- The loop `again:` of `Uint64n`, at most `tries` draws; `b` is the 8-byte
scratch slice, reused from one draw to the next. The decoding
`binary.LittleEndian.Uint64` panics on a slice of fewer than 8 bytes. -/
def RNG.Uint64n.again (ks : Keystream) (fuel : Nat) (n : Nat) :
    Nat → RNG → List UInt8 → Except Fault Nat × RNG
  | 0, r, _ => (.error .outOfFuel, r)
  | tries + 1, r, b =>
    match r.Read ks fuel b with
    | (.error e, r1) => (.error e, r1)
    | (.ok (b1, _), r1) =>
      if b1.length < 8 then (.error .outOfRange, r1)
      else
        match Uint64n.accept n (LittleEndian.Uint64 b1) with
        | none => RNG.Uint64n.again ks fuel n tries r1 b1
        | some v => (.ok v, r1)

/-- Method `Uint64n`. The fuel bounds the number of draws and, within each
draw, the loop of `Read`. -/
def RNG.Uint64n (ks : Keystream) (fuel : Nat) (r : RNG) (n : Nat) : Except Fault Nat × RNG :=
  if n = 0 then (.error (.invalidArgument "fastrand: argument to Uint64n is 0"), r)
  else RNG.Uint64n.again ks fuel n fuel r (List.replicate 8 0)

/-- Method `Intn`. -/
def RNG.Intn (ks : Keystream) (fuel : Nat) (r : RNG) (n : Int) : Except Fault Int × RNG :=
  if n ≤ 0 then
    (.error (.invalidArgument ("fastrand: argument to Intn is <= 0: " ++ toString n)), r)
  else
    match r.Uint64n ks fuel (uint64 n) with
    | (.error e, r1) => (.error e, r1)
    | (.ok v, r1) => (.ok (int v), r1)

/-- The body of the loop of `Perm` once `j` is drawn: `m[i] = m[j]; m[j] = i`. -/
def Perm.step (m : List Int) (i j : Nat) : List Int :=
  (m.set i (m.getD j 0)).set j (i : Int)

/-- The loop `for i := 1; i < n; i++` of `Perm`; `k` is the number of
iterations left, `n - i`. -/
def RNG.Perm.loop (ks : Keystream) (fuel : Nat) :
    Nat → Nat → RNG → List Int → Except Fault (List Int) × RNG
  | 0, _, r, m => (.ok m, r)
  | k + 1, i, r, m =>
    match r.Intn ks fuel ((i : Int) + 1) with
    | (.error e, r1) => (.error e, r1)
    | (.ok j, r1) =>
      if j < 0 ∨ (m.length : Int) ≤ j ∨ m.length ≤ i then (.error .outOfRange, r1)
      else RNG.Perm.loop ks fuel k (i + 1) r1 (Perm.step m i j.toNat)

/-- Method `Perm`. -/
def RNG.Perm (ks : Keystream) (fuel : Nat) (r : RNG) (n : Int) :
    Except Fault (List Int) × RNG :=
  if n < 0 then (.error .negativeLen, r)
  else RNG.Perm.loop ks fuel (n.toNat - 1) 1 r (List.replicate n.toNat 0)

/-- The loop of `Perm` with the values drawn by `Intn` given as a list: `js`
holds the draws still to come, the first of them for index `i`. -/
def permOfDraws.loop : List Nat → Nat → List Int → List Int
  | [], _, m => m
  | j :: js, i, m => permOfDraws.loop js (i + 1) (Perm.step m i j)

/-- The slice `Perm(n)` builds when `Intn` draws `js`: `js[k]` is the value
drawn at `i = k + 1`. -/
def permOfDraws (n : Nat) (js : List Nat) : List Int :=
  permOfDraws.loop js 1 (List.replicate n 0)

/-! ## The calls of the cipher

The methods `reseed` and `Read` once more, each giving in addition the list of
the calls of `chacha.XORKeyStream` it made, in order. Dropping the list gives
back `RNG.reseed`, `RNG.Read.loop` and `RNG.Read` (`reseedT_fst`, `loopT_fst`,
`ReadT_fst`). -/

/-- A call of `chacha.XORKeyStream` made by the generator. -/
inductive Event where
  /-- The call in `reseed`: the buffer is run through the cipher under `key`. -/
  | reseed (key : List UInt8)
  /-- The call on the large-request path: a destination of `len` bytes is run
  through the cipher under `key`. -/
  | direct (key : List UInt8) (len : Nat)
  deriving DecidableEq, Repr

/-- Whether a call is that of `reseed`. -/
def Event.isReseed : Event → Bool
  | .reseed _ => true
  | .direct _ _ => false

/-- The number of reseeds among the calls. -/
def reseedCount (log : List Event) : Nat := log.countP Event.isReseed

/-- Method `reseed`, with its call of the cipher. -/
def RNG.reseedT (ks : Keystream) (r : RNG) : (Except Fault Unit × RNG) × List Event :=
  if r.buf.length < KeySize then ((.error .outOfRange, r), [])
  else
    match chacha.XORKeyStream ks r.buf zeroNonce (r.buf.take KeySize) r.rounds with
    | .error e => ((.error e, r), [.reseed (r.buf.take KeySize)])
    | .ok out => ((.ok (), { r with buf := out, n := KeySize }), [.reseed (r.buf.take KeySize)])

/-- The loop `for n < len(b)` of `Read`, with the calls of the cipher. -/
def RNG.Read.loopT (ks : Keystream) :
    Nat → RNG → List UInt8 → Nat → (Except Fault (List UInt8) × RNG) × List Event
  | fuel, r, b, n =>
    if n < b.length then
      match fuel with
      | 0 => ((.error .outOfFuel, r), [])
      | fuel + 1 =>
        match (if r.n = r.buf.length then r.reseedT ks else ((.ok (), r), [])) with
        | ((.error e, r1), ev) => ((.error e, r1), ev)
        | ((.ok _, r1), ev) =>
          if r1.buf.length < r1.n then ((.error .outOfRange, r1), ev)
          else
            let (b1, c) := copyAt b n (r1.buf.drop r1.n)
            let rest := RNG.Read.loopT ks fuel
              { r1 with buf := erase r1.buf r1.n (r1.n + c), n := r1.n + c } b1 (n + c)
            (rest.1, ev ++ rest.2)
    else ((.ok b, r), [])

/-- Method `Read`, with the calls of the cipher. -/
def RNG.ReadT (ks : Keystream) (fuel : Nat) (r : RNG) (b : List UInt8) :
    (Except Fault (List UInt8 × Nat) × RNG) × List Event :=
  if r.buf.length < b.length then
    match r.reseedT ks with
    | ((.error e, r1), ev) => ((.error e, r1), ev)
    | ((.ok _, r1), ev) =>
      if r1.buf.length < r1.n + KeySize then ((.error .outOfRange, r1), ev)
      else
        let tmpKey := (r1.buf.drop r1.n).take KeySize
        match chacha.XORKeyStream ks b zeroNonce tmpKey r1.rounds with
        | .error e => ((.error e, r1), ev ++ [.direct tmpKey b.length])
        | .ok b1 =>
          ((.ok (b1, b.length),
            { r1 with buf := erase r1.buf r1.n (r1.n + KeySize), n := r1.n + tmpKey.length }),
            ev ++ [.direct tmpKey b.length])
  else
    match RNG.Read.loopT ks fuel r b 0 with
    | ((.error e, r1), ev) => ((.error e, r1), ev)
    | ((.ok b1, r1), ev) => ((.ok (b1, b.length), r1), ev)

/-! ## Notions used in the statements -/

/-- The round counts the cipher accepts. -/
def ValidRounds (rounds : Int) : Prop := rounds = 8 ∨ rounds = 12 ∨ rounds = 20

instance (rounds : Int) : Decidable (ValidRounds rounds) := by
  unfold ValidRounds; infer_instance

/-- The state `reseed` leaves when it succeeds. -/
def reseeded (ks : Keystream) (r : RNG) : RNG :=
  { r with
    buf := List.zipWith (fun x k => x ^^^ k) r.buf
      (keystream ks (r.buf.take KeySize) zeroNonce r.rounds r.buf.length),
    n := KeySize }

/-- The scratch slice and the generator after `k` successive calls
`r.Read(b)` on the same slice `b`, the draws of `Uint64n`. -/
def RNG.draws (ks : Keystream) (fuel : Nat) :
    Nat → RNG → List UInt8 → Except Fault (List UInt8) × RNG
  | 0, r, b => (.ok b, r)
  | k + 1, r, b =>
    match r.Read ks fuel b with
    | (.error e, r1) => (.error e, r1)
    | (.ok (b1, _), r1) => RNG.draws ks fuel k r1 b1

/-- The draws `Perm(n)` can receive from `Intn`: one for each `i` from 1 to
`n - 1`, the one at `i` (entry `i - 1` of the list) in `[0, i]`. -/
def ValidDraws (n : Nat) (js : List Nat) : Prop :=
  js.length = n - 1 ∧ ∀ k, k < js.length → js.getD k 0 ≤ k + 1

instance (n : Nat) (js : List Nat) : Decidable (ValidDraws n js) := by
  unfold ValidDraws; infer_instance

/-- The slice `m` has length `n` and holds each integer of `[0, n)` exactly once. -/
def IsPermutation (n : Nat) (m : List Int) : Prop :=
  m.length = n ∧ ∀ v : Nat, v < n → m.count (v : Int) = 1

instance (n : Nat) (m : List Int) : Decidable (IsPermutation n m) := by
  unfold IsPermutation; infer_instance

/-- One step of the loop of `Perm` seen on the part of the slice written so
far: from the first `i` entries `p` and the draw `j` to the first `i + 1`. -/
def stepPrefix (p : List Int) (j : Nat) : List Int :=
  (p ++ [p.getD j 0]).set j (p.length : Int)

/-- Whether a fault is the invalid-argument failure of the sampling layer. -/
def Fault.isInvalidArgument : Fault → Bool
  | .invalidArgument _ => true
  | _ => false

/-- The states on which every `Read` completes: the buffer holds at least two
keys (`bufsize ≥ 32`), the cursor is inside it, the round count is valid. -/
def RNG.Healthy (r : RNG) : Prop :=
  2 * KeySize ≤ r.buf.length ∧ r.n ≤ r.buf.length ∧ ValidRounds r.rounds

instance (r : RNG) : Decidable r.Healthy := by
  unfold RNG.Healthy; infer_instance

/-- The number of reseeds a small request needs: none when the `want` bytes
asked for are among the `avail` bytes left in the buffer, else the least
number of refills of `s` bytes that covers the rest, `⌈(want - avail) / s⌉`. -/
def reseedsNeeded (want avail s : Nat) : Nat :=
  if want ≤ avail then 0 else (want - avail + (s - 1)) / s

/-- The values returned by the successive calls `r.Intn(i + 1)` of the loop of
`Perm`: `k` calls, the first for index `i` on the generator `r`, each later
one on the generator as the call before it left it. The list ends early at a
call that does not return. -/
def RNG.Perm.drawn (ks : Keystream) (fuel : Nat) : Nat → Nat → RNG → List Int
  | 0, _, _ => []
  | k + 1, i, r =>
    match r.Intn ks fuel ((i : Int) + 1) with
    | (.error _, _) => []
    | (.ok j, r1) => j :: RNG.Perm.drawn ks fuel k (i + 1) r1

/-- The stream of a generator read one byte at a time: reseed when the buffer
is used up, then take the byte under the cursor, erase it and move on. -/
def RNG.nextByte (ks : Keystream) (r : RNG) : UInt8 × RNG :=
  let r1 := if r.n = r.buf.length then reseeded ks r else r
  (r1.buf.getD r1.n 0, { r1 with buf := erase r1.buf r1.n (r1.n + 1), n := r1.n + 1 })

/-- The first `k` bytes of the stream of a generator, and the generator after them. -/
def RNG.nextBytes (ks : Keystream) : Nat → RNG → List UInt8 × RNG
  | 0, r => ([], r)
  | k + 1, r =>
    ((r.nextByte ks).1 :: (RNG.nextBytes ks k (r.nextByte ks).2).1,
      (RNG.nextBytes ks k (r.nextByte ks).2).2)

/-! ## Concrete inputs -/

/-- A small concrete keystream for evaluating the model on explicit inputs. It
stands in for the cipher there and is not ChaCha. -/
def demoStream : Keystream := fun key _ rounds i =>
  UInt8.ofNat (key.foldl (fun a x => 3 * a + x.toNat + 1) 7 % 251 + 37 * i + rounds.toNat)

/-- The generator `NewCustom(seed, 16, 20)` under `demoStream`, for the seed
of 32 bytes 3. -/
def demoGen : RNG :=
  { buf := [85, 120, 163, 198, 233, 12, 55, 90, 125, 160, 203, 238, 17, 52, 95, 130, 165, 200,
      243, 22, 57, 92, 135, 170, 205, 240, 27, 62, 97, 132, 175, 210, 246, 27, 64, 101, 138, 175,
      212, 249, 30, 67, 104, 141, 178, 215, 252, 33],
    n := 32
    rounds := 20 }

/-- The state of `demoGen` once its 16 spare bytes are consumed. -/
def demoGenSpent : RNG :=
  { demoGen with buf := demoGen.buf.take 32 ++ List.replicate 16 0, n := 48 }

/-- The generator `NewCustom(seed, 32, 20)` under `demoStream`, for the seed
of 32 bytes 3: the smallest buffer on which the large-request path runs. -/
def demoGen64 : RNG :=
  { buf := [85, 120, 163, 198, 233, 12, 55, 90, 125, 160, 203, 238, 17, 52, 95, 130, 165, 200,
      243, 22, 57, 92, 135, 170, 205, 240, 27, 62, 97, 132, 175, 210, 246, 27, 64, 101, 138, 175,
      212, 249, 30, 67, 104, 141, 178, 215, 252, 33, 70, 107, 144, 181, 218, 255, 36, 73, 110,
      147, 184, 221, 2, 39, 76, 113],
    n := 32
    rounds := 20 }

/-- The subtraction `a - b` of Go on `uint64`: it wraps around modulo `2 ^ 64`. -/
def sub64 (a b : Nat) : Nat := (a + 2 ^ 64 - b % 2 ^ 64) % 2 ^ 64

/-- The generator after a sequence of calls of `Read`, each given as its fuel
and its destination and each starting from the state the call before it left;
`none` when one of the calls does not complete. -/
def RNG.afterReads (ks : Keystream) : RNG → List (Nat × List UInt8) → Option RNG
  | r, [] => some r
  | r, (fuel, b) :: calls =>
    match r.Read ks fuel b with
    | (.ok _, r1) => RNG.afterReads ks r1 calls
    | (.error _, _) => none

/-- The state invariant of a generator with a buffer of `len` bytes and round
count `rounds`: the cursor lies between the key and the end of the buffer, and
the bytes between the key and the cursor are zero. -/
def RNG.Inv (len : Nat) (rounds : Int) (r : RNG) : Prop :=
  r.buf.length = len ∧ r.rounds = rounds ∧ KeySize ≤ r.n ∧ r.n ≤ r.buf.length ∧
    ∀ i, KeySize ≤ i → i < r.n → r.buf[i]? = some 0

/-- The state `demoGen` reaches by `Read` of 8 bytes, then `Read` of 12 bytes
(the second call uses up the buffer and reseeds once). -/
def demoGenLater : RNG :=
  { buf := [200, 186, 68, 202, 216, 90, 76, 250, 184, 74, 196, 218, 72, 74, 252, 74, 72, 218,
      196, 74, 184, 250, 76, 90, 216, 202, 68, 186, 200, 74, 92, 202, 0, 0, 0, 0, 209, 246, 27,
      64, 101, 138, 175, 212, 249, 30, 67, 104],
    n := 36
    rounds := 20 }

/-! # Properties -/

/-! ## Basic facts -/


theorem keystream_length (ks : Keystream) (key nonce : List UInt8) (rounds : Int) (len : Nat) :
    (keystream ks key nonce rounds len).length = len := by
  simp [keystream]

theorem XORKeyStream_ok (ks : Keystream) (src nonce key : List UInt8) (rounds : Int)
    (h : ValidRounds rounds) :
    chacha.XORKeyStream ks src nonce key rounds =
      .ok (List.zipWith (fun x k => x ^^^ k) src (keystream ks key nonce rounds src.length)) := by
  unfold chacha.XORKeyStream
  rw [if_neg]
  rcases h with h | h | h <;> subst h <;> decide

theorem XORKeyStream_bad (ks : Keystream) (src nonce key : List UInt8) (rounds : Int)
    (h : ¬ ValidRounds rounds) :
    chacha.XORKeyStream ks src nonce key rounds = .error .badRounds := by
  unfold chacha.XORKeyStream
  rw [if_pos]
  unfold ValidRounds at h
  omega

theorem xor_keystream_length (ks : Keystream) (src key nonce : List UInt8) (rounds : Int) :
    (List.zipWith (fun x k => x ^^^ k) src (keystream ks key nonce rounds src.length)).length
      = src.length := by
  simp [keystream_length]

theorem erase_length (buf : List UInt8) (lo hi : Nat) (h1 : lo ≤ hi) (h2 : hi ≤ buf.length) :
    (erase buf lo hi).length = buf.length := by
  simp [erase]; omega

theorem copyAt_length (b : List UInt8) (n : Nat) (src : List UInt8) (h : n ≤ b.length) :
    (copyAt b n src).1.length = b.length := by
  simp [copyAt]; omega


theorem reseed_ok (ks : Keystream) (r : RNG) (hlen : KeySize ≤ r.buf.length)
    (hr : ValidRounds r.rounds) : r.reseed ks = (.ok (), reseeded ks r) := by
  unfold RNG.reseed
  rw [if_neg (by omega), XORKeyStream_ok ks _ _ _ _ hr]
  rfl

theorem reseeded_length (ks : Keystream) (r : RNG) :
    (reseeded ks r).buf.length = r.buf.length := by
  simp [reseeded, keystream_length]

theorem reseeded_n (ks : Keystream) (r : RNG) : (reseeded ks r).n = KeySize := rfl

theorem reseeded_rounds (ks : Keystream) (r : RNG) : (reseeded ks r).rounds = r.rounds := rfl

/-- With a buffer of exactly `KeySize` bytes a reseed leaves nothing to copy:
the loop of `Read` makes no progress and never ends. -/
theorem Read_loop_hangs (ks : Keystream) (fuel : Nat) :
    ∀ (r : RNG) (b : List UInt8) (n : Nat), r.buf.length = KeySize → r.n = KeySize →
      ValidRounds r.rounds → n < b.length →
      (RNG.Read.loop ks fuel r b n).1 = .error .outOfFuel := by
  induction fuel with
  | zero =>
    intro r b n _ _ _ hn
    unfold RNG.Read.loop
    simp [hn]
  | succ fuel ih =>
    intro r b n hlen hcur hr hn
    unfold RNG.Read.loop
    rw [if_pos hn]
    simp only
    rw [if_pos (by omega), reseed_ok ks r (by omega) hr]
    simp only
    have hl : (reseeded ks r).buf.length = KeySize := by rw [reseeded_length]; exact hlen
    rw [if_neg (by rw [hl, reseeded_n]; omega)]
    have hd : (reseeded ks r).buf.drop (reseeded ks r).n = [] := by
      apply List.drop_eq_nil_of_le
      rw [hl, reseeded_n]
    rw [hd]
    have hc : copyAt b n [] = (b, 0) := by
      simp [copyAt]
    rw [hc]
    simp only [Nat.add_zero]
    apply ih
    · simp only
      rw [erase_length _ _ _ (le_refl _) (by rw [hl, reseeded_n])]
      exact hl
    · rfl
    · exact hr
    · exact hn

theorem NewCustom_ok (ks : Keystream) (seed : List UInt8) (bufsize rounds : Int)
    (hb : 0 ≤ bufsize) (hb2 : (KeySize : Int) + bufsize ≤ MaxInt64) (hr : ValidRounds rounds) :
    NewCustom ks seed bufsize rounds =
      .ok (reseeded ks
        { buf := (copyAt (List.replicate ((KeySize : Int) + bufsize).toNat 0) 0 seed).1,
          n := 0, rounds := rounds }) := by
  unfold NewCustom
  have hk : ¬ ((KeySize : Int) + bufsize < 0 ∨ MaxInt64 < (KeySize : Int) + bufsize) := by
    have : (0 : Int) ≤ (KeySize : Int) := Int.natCast_nonneg _
    omega
  rw [if_neg hk]
  simp only
  rw [reseed_ok ks _ _ hr]
  simp only [KeySize] at *
  rw [copyAt_length _ _ _ (Nat.zero_le _)]
  simp only [List.length_replicate]
  omega

theorem reseed_short (ks : Keystream) (r : RNG) (h : r.buf.length < KeySize) :
    r.reseed ks = (.error .outOfRange, r) := by
  unfold RNG.reseed
  rw [if_pos h]

theorem reseed_bad (ks : Keystream) (r : RNG) (h : KeySize ≤ r.buf.length)
    (hr : ¬ ValidRounds r.rounds) : r.reseed ks = (.error .badRounds, r) := by
  unfold RNG.reseed
  rw [if_neg (by omega), XORKeyStream_bad ks _ _ _ _ hr]

theorem NewCustom_negative (ks : Keystream) (seed : List UInt8) (bufsize rounds : Int)
    (hb : bufsize < 0) :
    NewCustom ks seed bufsize rounds = .error .negativeLen ∨
      NewCustom ks seed bufsize rounds = .error .outOfRange := by
  unfold NewCustom
  by_cases hk : (KeySize : Int) + bufsize < 0 ∨ MaxInt64 < (KeySize : Int) + bufsize
  · left; rw [if_pos hk]
  · right
    rw [if_neg hk]
    simp only
    rw [reseed_short]
    simp only
    rw [copyAt_length _ _ _ (Nat.zero_le _)]
    simp only [List.length_replicate, KeySize] at *
    omega

/-- A buffer size for which `chacha.KeySize+bufsize` wraps around makes `make`
panic. -/
theorem NewCustom_overflow (ks : Keystream) (seed : List UInt8) (bufsize rounds : Int)
    (hb : MaxInt64 < (KeySize : Int) + bufsize) :
    NewCustom ks seed bufsize rounds = .error .negativeLen := by
  unfold NewCustom
  rw [if_pos (Or.inr hb)]

theorem NewCustom_bad_rounds (ks : Keystream) (seed : List UInt8) (bufsize rounds : Int)
    (hb : 0 ≤ bufsize) (hb2 : (KeySize : Int) + bufsize ≤ MaxInt64) (hr : ¬ ValidRounds rounds) :
    NewCustom ks seed bufsize rounds = .error .badRounds := by
  unfold NewCustom
  have hk : ¬ ((KeySize : Int) + bufsize < 0 ∨ MaxInt64 < (KeySize : Int) + bufsize) := by
    have : (0 : Int) ≤ (KeySize : Int) := Int.natCast_nonneg _
    omega
  rw [if_neg hk]
  simp only
  rw [reseed_bad ks _ _ hr]
  simp only
  rw [copyAt_length _ _ _ (Nat.zero_le _)]
  simp only [List.length_replicate, KeySize] at *
  omega

theorem NewCustom_length (ks : Keystream) (seed : List UInt8) (bufsize rounds : Int) (r : RNG)
    (h : NewCustom ks seed bufsize rounds = .ok r) :
    0 ≤ bufsize ∧ ValidRounds rounds ∧
    (r.buf.length : Int) = (KeySize : Int) + bufsize ∧ r.n = KeySize ∧ r.rounds = rounds := by
  by_cases hb : 0 ≤ bufsize
  · by_cases hb2 : (KeySize : Int) + bufsize ≤ MaxInt64
    · by_cases hr : ValidRounds rounds
      · rw [NewCustom_ok ks seed bufsize rounds hb hb2 hr] at h
        simp only [Except.ok.injEq] at h
        subst h
        refine ⟨hb, hr, ?_, rfl, rfl⟩
        rw [reseeded_length]
        simp only
        rw [copyAt_length _ _ _ (Nat.zero_le _)]
        simp only [List.length_replicate, KeySize] at *
        omega
      · rw [NewCustom_bad_rounds ks seed bufsize rounds hb hb2 hr] at h
        simp at h
    · rw [NewCustom_overflow ks seed bufsize rounds (by omega)] at h
      simp at h
  · rcases NewCustom_negative ks seed bufsize rounds (by omega) with h1 | h1 <;>
      rw [h1] at h <;> simp at h

/-- On a buffer shorter than two keys, the slice `r.buf[r.n : r.n+chacha.KeySize]`
of the large-request path is out of range. -/
theorem Read_large_panics (ks : Keystream) (fuel : Nat) (r : RNG) (b : List UInt8)
    (h1 : KeySize ≤ r.buf.length) (h2 : r.buf.length < 2 * KeySize) (hr : ValidRounds r.rounds)
    (hb : r.buf.length < b.length) :
    (r.Read ks fuel b).1 = .error .outOfRange := by
  unfold RNG.Read
  rw [if_pos hb, reseed_ok ks r h1 hr]
  simp only
  rw [if_pos (by rw [reseeded_length, reseeded_n]; omega)]

/-- On a buffer of exactly `KeySize` bytes every non-empty small request hangs. -/
theorem Read_small_hangs (ks : Keystream) (fuel : Nat) (r : RNG) (b : List UInt8)
    (h1 : r.buf.length = KeySize) (h2 : r.n = KeySize) (hr : ValidRounds r.rounds)
    (hb : 0 < b.length) (hb2 : b.length ≤ r.buf.length) :
    (r.Read ks fuel b).1 = .error .outOfFuel := by
  unfold RNG.Read
  rw [if_neg (by omega)]
  have h := Read_loop_hangs ks fuel r b 0 h1 h2 hr hb
  generalize RNG.Read.loop ks fuel r b 0 = res at h
  obtain ⟨x, y⟩ := res
  simp only at h
  subst h
  rfl

/-- C1, at a failing input. A generator built by `NewCustom` with a 32-byte seed,
12 rounds and `bufsize = 0` never finishes `Read` on a 1-byte destination (the
outcome is `outOfFuel` whatever the fuel) and panics with a slice out of range
on a 33-byte destination; with `bufsize = 31` it panics on a 64-byte
destination. This holds for every cipher `ks`. -/
theorem C1_Read_fails_on_short_buffer (ks : Keystream) (fuel : Nat) :
    (∃ r0, NewCustom ks (List.replicate 32 0) 0 12 = .ok r0 ∧
      (r0.Read ks fuel [0]).1 = .error .outOfFuel ∧
      (r0.Read ks fuel (List.replicate 33 0)).1 = .error .outOfRange) ∧
    (∃ r1, NewCustom ks (List.replicate 32 0) 31 12 = .ok r1 ∧
      (r1.Read ks fuel (List.replicate 64 0)).1 = .error .outOfRange) := by
  constructor
  · refine ⟨_, NewCustom_ok ks _ 0 12 (by decide) (by decide) (by decide), ?_, ?_⟩
    · apply Read_small_hangs
      · rw [reseeded_length]; rfl
      · rfl
      · exact Or.inr (Or.inl rfl)
      · decide
      · rw [reseeded_length]; decide
    · apply Read_large_panics
      · rw [reseeded_length]; decide
      · rw [reseeded_length]; decide
      · exact Or.inr (Or.inl rfl)
      · rw [reseeded_length]; decide
  · refine ⟨_, NewCustom_ok ks _ 31 12 (by decide) (by decide) (by decide), ?_⟩
    apply Read_large_panics
    · rw [reseeded_length]; decide
    · rw [reseeded_length]; decide
    · exact Or.inr (Or.inl rfl)
    · rw [reseeded_length]; decide

theorem accept_some (n i v : Nat) (hn : 0 < n) (h : Uint64n.accept n i = some v) :
    i < Uint64n.max n ∧ v = i % n ∧ v < n := by
  unfold Uint64n.accept at h
  split at h
  · simp at h
  · simp only [Option.some.injEq] at h
    subst h
    exact ⟨by omega, rfl, Nat.mod_lt _ hn⟩

theorem accept_none (n i : Nat) (h : Uint64n.accept n i = none) : Uint64n.max n ≤ i := by
  unfold Uint64n.accept at h
  split at h
  · assumption
  · simp at h

/-- What a returning run of the loop `again:` has done: some number `k` of
draws were discarded and draw `k + 1` was accepted. -/
theorem again_ok (ks : Keystream) (fuel n : Nat) :
    ∀ (tries : Nat) (r : RNG) (b : List UInt8) (v : Nat) (r' : RNG),
      RNG.Uint64n.again ks fuel n tries r b = (.ok v, r') →
      ∃ k b', k < tries ∧ RNG.draws ks fuel (k + 1) r b = (.ok b', r') ∧
        Uint64n.accept n (LittleEndian.Uint64 b') = some v ∧
        ∀ j, j < k → ∃ bj rj, RNG.draws ks fuel (j + 1) r b = (.ok bj, rj) ∧
          Uint64n.accept n (LittleEndian.Uint64 bj) = none := by
  intro tries
  induction tries with
  | zero =>
    intro r b v r' h
    simp [RNG.Uint64n.again] at h
  | succ t ih =>
    intro r b v r' h
    unfold RNG.Uint64n.again at h
    cases hread : r.Read ks fuel b with
    | mk res r1 =>
      rw [hread] at h
      cases res with
      | error e => simp at h
      | ok p =>
        obtain ⟨b1, cnt⟩ := p
        simp only at h
        split at h
        · simp at h
        · cases hacc : Uint64n.accept n (LittleEndian.Uint64 b1) with
          | some w =>
            rw [hacc] at h
            simp only [Prod.mk.injEq, Except.ok.injEq] at h
            obtain ⟨hv, hr⟩ := h
            subst hv hr
            refine ⟨0, b1, Nat.succ_pos _, ?_, hacc, ?_⟩
            · simp [RNG.draws, hread]
            · intro j hj; omega
          | none =>
            rw [hacc] at h
            simp only at h
            obtain ⟨k, b', hk, hd, ha, hrej⟩ := ih r1 b1 v r' h
            refine ⟨k + 1, b', by omega, ?_, ha, ?_⟩
            · rw [RNG.draws, hread]
              exact hd
            · intro j hj
              cases j with
              | zero =>
                exact ⟨b1, r1, by simp [RNG.draws, hread], hacc⟩
              | succ j =>
                obtain ⟨bj, rj, h1, h2⟩ := hrej j (by omega)
                refine ⟨bj, rj, ?_, h2⟩
                rw [RNG.draws, hread]
                exact h1

/-- C2. Whenever `Uint64n(n)` returns `v` for `n > 0`: `v < n`, and among the
successive 8-byte draws there is a first one whose little-endian value `i` is
below `max`, with `v = i mod n`; every earlier draw was at least `max`. The
generator is left as that draw left it. -/
theorem C2_Uint64n_returns_first_accepted_draw (ks : Keystream) (fuel : Nat) (r : RNG)
    (n v : Nat) (r' : RNG) (hn : 0 < n) (h : r.Uint64n ks fuel n = (.ok v, r')) :
    v < n ∧
    ∃ k b, RNG.draws ks fuel (k + 1) r (List.replicate 8 0) = (.ok b, r') ∧
      LittleEndian.Uint64 b < Uint64n.max n ∧
      v = LittleEndian.Uint64 b % n ∧
      ∀ j, j < k → ∃ bj rj, RNG.draws ks fuel (j + 1) r (List.replicate 8 0) = (.ok bj, rj) ∧
        Uint64n.max n ≤ LittleEndian.Uint64 bj := by
  unfold RNG.Uint64n at h
  rw [if_neg (by omega)] at h
  obtain ⟨k, b, _, hd, ha, hrej⟩ := again_ok ks fuel n fuel r _ v r' h
  obtain ⟨h1, h2, h3⟩ := accept_some n _ v hn ha
  refine ⟨h3, k, b, hd, h1, h2, ?_⟩
  intro j hj
  obtain ⟨bj, rj, e1, e2⟩ := hrej j hj
  exact ⟨bj, rj, e1, accept_none n _ e2⟩

theorem demoGen_eq : NewCustom demoStream (List.replicate 32 3) 16 20 = .ok demoGen := by
  decide

theorem demoGen64_eq : NewCustom demoStream (List.replicate 32 3) 32 20 = .ok demoGen64 := by
  decide

/-- C2 at a concrete input: under `demoStream`, `demoGen.Uint64n(2^63 + 1)`
discards its first draw and returns the second, 2449069459259278110. -/
theorem C2_Uint64n_witness :
    demoGen.Uint64n demoStream 4 (2 ^ 63 + 1) = (.ok 2449069459259278110, demoGenSpent) ∧
    (2449069459259278110 < 2 ^ 63 + 1 ∧
    ∃ k b, RNG.draws demoStream 4 (k + 1) demoGen (List.replicate 8 0) = (.ok b, demoGenSpent) ∧
      LittleEndian.Uint64 b < Uint64n.max (2 ^ 63 + 1) ∧
      2449069459259278110 = LittleEndian.Uint64 b % (2 ^ 63 + 1) ∧
      ∀ j, j < k → ∃ bj rj,
        RNG.draws demoStream 4 (j + 1) demoGen (List.replicate 8 0) = (.ok bj, rj) ∧
        Uint64n.max (2 ^ 63 + 1) ≤ LittleEndian.Uint64 bj) :=
  ⟨by decide,
    C2_Uint64n_returns_first_accepted_draw demoStream 4 demoGen (2 ^ 63 + 1)
      2449069459259278110 demoGenSpent (by decide) (by decide)⟩

theorem max_eq_mul (n : Nat) : Uint64n.max n = n * (MaxUint64 / n) := by
  unfold Uint64n.max
  have := Nat.div_add_mod MaxUint64 n
  omega

theorem max_le (n : Nat) : Uint64n.max n ≤ MaxUint64 := by
  unfold Uint64n.max
  omega

theorem accept_eq_some_iff (n i r : Nat) :
    Uint64n.accept n i = some r ↔ i < Uint64n.max n ∧ i % n = r := by
  unfold Uint64n.accept
  split
  · simp; omega
  · simp; omega

/-- The draws that `Uint64n(n)` maps to `r` are the numbers `r + n * k` for
`k` below `max / n`. -/
theorem accepted_draws_eq_image (n r : Nat) (hr : r < n) :
    (Finset.range (2 ^ 64)).filter (fun i => Uint64n.accept n i = some r) =
      (Finset.range (MaxUint64 / n)).image (fun k => r + n * k) := by
  ext i
  simp only [Finset.mem_filter, Finset.mem_range, Finset.mem_image]
  rw [accept_eq_some_iff n i r, max_eq_mul]
  constructor
  · rintro ⟨_, h1, h2⟩
    refine ⟨i / n, ?_, ?_⟩
    · exact Nat.div_lt_of_lt_mul h1
    · have := Nat.div_add_mod i n
      omega
  · rintro ⟨k, hk, rfl⟩
    have h1 : n * (k + 1) ≤ n * (MaxUint64 / n) := Nat.mul_le_mul_left n hk
    have h2 : n * (MaxUint64 / n) ≤ MaxUint64 := Nat.mul_div_le MaxUint64 n
    have h3 : n * (k + 1) = n * k + n := by ring
    have hM : MaxUint64 < 2 ^ 64 := by decide
    refine ⟨by omega, by omega, ?_⟩
    rw [Nat.add_mul_mod_self_left]
    exact Nat.mod_eq_of_lt hr

/-- C3. For `n > 0` and every residue `r < n`, the number of 64-bit draws `i`
that `Uint64n(n)` accepts (`i < max`) and maps to `r` (`i mod n = r`) is
`max / n`, the same for every `r`. -/
theorem C3_Uint64n_residue_classes_equal (n r : Nat) (hn : 0 < n) (hr : r < n) :
    ((Finset.range (2 ^ 64)).filter (fun i => Uint64n.accept n i = some r)).card =
      Uint64n.max n / n := by
  rw [accepted_draws_eq_image n r hr, max_eq_mul, Nat.mul_div_cancel_left _ hn]
  rw [Finset.card_image_of_injective, Finset.card_range]
  intro a b hab
  simp only at hab
  have : n * a = n * b := by omega
  exact Nat.eq_of_mul_eq_mul_left hn this

/-- C3 at `n = 6`, `r = 5`. -/
theorem C3_Uint64n_residue_classes_witness :
    ((Finset.range (2 ^ 64)).filter (fun i => Uint64n.accept 6 i = some 5)).card =
      Uint64n.max 6 / 6 ∧ Uint64n.max 6 / 6 = 3074457345618258602 :=
  ⟨C3_Uint64n_residue_classes_equal 6 5 (by decide) (by decide), by decide⟩

/-! ## The shuffle of `Perm` -/

theorem step_on_written (p : List Int) (t j : Nat) (hj : j ≤ p.length) :
    Perm.step (p ++ List.replicate (t + 1) 0) p.length j =
      stepPrefix p j ++ List.replicate t 0 := by
  unfold Perm.step stepPrefix
  have hget : (p ++ List.replicate (t + 1) 0).getD j 0 = p.getD j 0 := by
    rcases Nat.lt_or_ge j p.length with h | h
    · simp [List.getD_eq_getElem?_getD, List.getElem?_append_left h]
    · have hj' : j = p.length := by omega
      subst hj'
      rw [List.getD_append_right _ _ _ _ (le_refl _), List.getD_eq_default _ _ (le_refl _)]
      simp [List.replicate_succ]
  rw [hget]
  have hset : (p ++ List.replicate (t + 1) 0).set p.length (p.getD j 0) =
      (p ++ [p.getD j 0]) ++ List.replicate t 0 := by
    rw [List.replicate_succ, List.set_append_right _ _ (le_refl _)]
    simp
  rw [hset, List.set_append_left]
  simp
  omega

theorem set_append_getD_perm (x : Int) :
    ∀ (p : List Int) (j : Nat), j < p.length →
      List.Perm ((p ++ [p.getD j 0]).set j x) (p ++ [x]) := by
  intro p
  induction p with
  | nil => intro j hj; simp at hj
  | cons a p ih =>
    intro j hj
    cases j with
    | zero =>
      simp only [List.cons_append, List.getD_cons_zero, List.set_cons_zero]
      have h1 : List.Perm (x :: (p ++ [a])) (x :: a :: p) :=
        List.Perm.cons x (List.perm_append_singleton a p)
      have h2 : List.Perm (a :: (p ++ [x])) (a :: x :: p) :=
        List.Perm.cons a (List.perm_append_singleton x p)
      exact h1.trans ((List.Perm.swap a x p).trans h2.symm)
    | succ j =>
      simp only [List.cons_append, List.getD_cons_succ, List.set_cons_succ]
      exact List.Perm.cons a (ih j (by simpa using hj))

/-- A step of the shuffle rearranges the entries written so far and the new
value `i`. -/
theorem stepPrefix_perm (p : List Int) (j : Nat) (hj : j ≤ p.length) :
    List.Perm (stepPrefix p j) (p ++ [(p.length : Int)]) := by
  unfold stepPrefix
  rcases Nat.lt_or_ge j p.length with h | h
  · exact set_append_getD_perm _ p j h
  · have hj' : j = p.length := by omega
    subst hj'
    simp

theorem stepPrefix_length (p : List Int) (j : Nat) : (stepPrefix p j).length = p.length + 1 := by
  simp [stepPrefix]

/-- The loop of `Perm` on a slice whose first `i` entries are `p` and whose
other entries are still zero is the fold of `stepPrefix`. -/
theorem loop_eq_foldl :
    ∀ (js : List Nat) (p : List Int),
      (∀ k, k < js.length → js.getD k 0 ≤ p.length + k) →
      permOfDraws.loop js p.length (p ++ List.replicate js.length 0) =
        js.foldl stepPrefix p := by
  intro js
  induction js with
  | nil => intro p _; simp [permOfDraws.loop]
  | cons j js ih =>
    intro p h
    have hj : j ≤ p.length := by simpa using h 0 (by simp)
    simp only [List.length_cons, permOfDraws.loop, List.foldl_cons]
    rw [step_on_written p js.length j hj]
    have := ih (stepPrefix p j) (by
      intro k hk
      have := h (k + 1) (by simpa using hk)
      rw [stepPrefix_length]
      simp only [List.getD_cons_succ] at this
      omega)
    rw [stepPrefix_length] at this
    exact this

theorem permOfDraws_eq_foldl (n : Nat) (js : List Nat) (h : ValidDraws (n + 1) js) :
    permOfDraws (n + 1) js = js.foldl stepPrefix [0] := by
  obtain ⟨hlen, hb⟩ := h
  have hlen' : js.length = n := by omega
  unfold permOfDraws
  have := loop_eq_foldl js [0] (by
    intro k hk
    have := hb k hk
    simp only [List.length_singleton]
    omega)
  simp only [List.length_singleton] at this
  rw [← this, hlen']
  rfl

theorem permOfDraws_zero (js : List Nat) (h : ValidDraws 0 js) : permOfDraws 0 js = [] := by
  obtain ⟨hlen, _⟩ := h
  have : js = [] := List.eq_nil_of_length_eq_zero (by omega)
  subst this
  rfl

theorem stepPrefix_getElem? (p : List Int) (j k : Nat) (hj : j ≤ p.length) :
    (stepPrefix p j)[k]? =
      if k = j then some (p.length : Int)
      else if k < p.length then p[k]?
      else if k = p.length then some (p.getD j 0) else none := by
  unfold stepPrefix
  rw [List.getElem?_set]
  by_cases hkj : k = j
  · subst hkj
    simp
    omega
  · rw [if_neg (fun h => hkj h.symm), if_neg hkj]
    by_cases hk : k < p.length
    · rw [if_pos hk, List.getElem?_append_left hk]
    · rw [if_neg hk, List.getElem?_append_right (by omega)]
      by_cases hk2 : k = p.length
      · subst hk2; simp
      · rw [if_neg hk2]
        have : k - p.length = (k - p.length - 1) + 1 := by omega
        rw [this]
        simp

theorem getD_lt_of_bounded (p : List Int) (b : Int) (hp : ∀ x ∈ p, x < b) (j : Nat)
    (hj : j < p.length) : p.getD j 0 < b := by
  rw [List.getD_eq_getElem _ _ hj]
  exact hp _ (List.getElem_mem hj)

/-- A step of the shuffle can be undone: the place of the new value gives the
draw, and the other entries give the earlier prefix. -/
theorem stepPrefix_inj (p q : List Int) (j j' : Nat) (hlen : p.length = q.length)
    (hq : ∀ x ∈ q, x < (q.length : Int))
    (hj : j ≤ p.length) (hj' : j' ≤ q.length) (h : stepPrefix p j = stepPrefix q j') :
    j = j' ∧ p = q := by
  have hjj : j = j' := by
    by_contra hne
    have e1 : (stepPrefix q j')[j]? = some (p.length : Int) := by
      rw [← h, stepPrefix_getElem? p j j hj, if_pos rfl]
    rw [stepPrefix_getElem? q j' j hj', if_neg hne] at e1
    by_cases hk : j < q.length
    · rw [if_pos hk, List.getElem?_eq_getElem hk] at e1
      have := hq _ (List.getElem_mem hk)
      simp only [Option.some.injEq] at e1
      rw [e1, hlen] at this
      exact lt_irrefl _ this
    · rw [if_neg hk, if_pos (by omega)] at e1
      simp only [Option.some.injEq] at e1
      have := getD_lt_of_bounded q _ hq j' (by omega)
      rw [e1, hlen] at this
      exact lt_irrefl _ this
  subst hjj
  refine ⟨rfl, ?_⟩
  apply List.ext_getElem?
  intro k
  by_cases hk : k < p.length
  · by_cases hkj : k = j
    · subst hkj
      have e1 := stepPrefix_getElem? p k p.length hj
      have e2 := stepPrefix_getElem? q k p.length hj'
      rw [h, e2] at e1
      rw [if_neg (by omega), if_neg (by omega), if_pos hlen] at e1
      rw [if_neg (by omega), if_neg (by omega), if_pos rfl] at e1
      simp only [Option.some.injEq] at e1
      rw [List.getD_eq_getElem _ _ hk, List.getD_eq_getElem _ _ (by omega)] at e1
      rw [List.getElem?_eq_getElem hk, List.getElem?_eq_getElem (by omega), e1]
    · have e1 := stepPrefix_getElem? p j k hj
      have e2 := stepPrefix_getElem? q j k hj'
      rw [h, e2] at e1
      rw [if_neg hkj, if_pos (by omega), if_neg hkj, if_pos hk] at e1
      exact e1.symm
  · rw [List.getElem?_eq_none (by omega), List.getElem?_eq_none (by omega)]

theorem stepPrefix_bounded (p : List Int) (j : Nat) (hj : j ≤ p.length)
    (hp : ∀ x ∈ p, x < (p.length : Int)) :
    ∀ x ∈ stepPrefix p j, x < ((stepPrefix p j).length : Int) := by
  intro x hx
  rw [stepPrefix_length]
  have := (stepPrefix_perm p j hj).mem_iff.1 hx
  simp only [List.mem_append, List.mem_singleton] at this
  rcases this with h | h
  · have := hp x h
    push_cast
    omega
  · subst h
    push_cast
    omega

/-- Two runs of the shuffle that end in the same slice started from the same
prefix and used the same draws. -/
theorem foldl_stepPrefix_inj :
    ∀ (js js' : List Nat) (p q : List Int), js.length = js'.length → p.length = q.length →
      (∀ x ∈ p, x < (p.length : Int)) → (∀ x ∈ q, x < (q.length : Int)) →
      (∀ k, k < js.length → js.getD k 0 ≤ p.length + k) →
      (∀ k, k < js'.length → js'.getD k 0 ≤ q.length + k) →
      js.foldl stepPrefix p = js'.foldl stepPrefix q → js = js' ∧ p = q := by
  intro js
  induction js with
  | nil =>
    intro js' p q hl _ _ _ _ _ h
    have : js' = [] := List.eq_nil_of_length_eq_zero (by simpa using hl.symm)
    subst this
    exact ⟨rfl, h⟩
  | cons j js ih =>
    intro js' p q hl hpq hp hq hv hv' h
    cases js' with
    | nil => simp at hl
    | cons j' js' =>
      have hj : j ≤ p.length := by simpa using hv 0 (by simp)
      have hj' : j' ≤ q.length := by simpa using hv' 0 (by simp)
      simp only [List.foldl_cons] at h
      have key := ih js' (stepPrefix p j) (stepPrefix q j') (by simpa using hl)
        (by rw [stepPrefix_length, stepPrefix_length, hpq])
        (stepPrefix_bounded p j hj hp) (stepPrefix_bounded q j' hj' hq)
        (by
          intro k hk
          have := hv (k + 1) (by simpa using hk)
          rw [stepPrefix_length]
          simp only [List.getD_cons_succ] at this
          omega)
        (by
          intro k hk
          have := hv' (k + 1) (by simpa using hk)
          rw [stepPrefix_length]
          simp only [List.getD_cons_succ] at this
          omega)
        h
      obtain ⟨h1, h2⟩ := key
      obtain ⟨h3, h4⟩ := stepPrefix_inj p q j j' hpq hq hj hj' h2
      exact ⟨by rw [h1, h3], h4⟩

/-- The slice `0, 1, ..., n - 1` has no repeated entry. -/
theorem rangeInt_nodup (n : Nat) : ((List.range n).map Int.ofNat).Nodup :=
  (List.nodup_range n).map (fun _ _ h => Int.ofNat.inj h)

theorem isPermutation_iff (n : Nat) (m : List Int) :
    IsPermutation n m ↔ List.Perm m ((List.range n).map Int.ofNat) := by
  constructor
  · rintro ⟨hlen, hc⟩
    have hsub : (List.range n).map Int.ofNat ⊆ m := by
      intro x hx
      obtain ⟨v, hv, rfl⟩ := List.mem_map.1 hx
      have := hc v (List.mem_range.1 hv)
      exact List.count_pos_iff.1 (by
        show 0 < List.count ((v : Nat) : Int) m
        omega)
    have sp := List.subperm_of_subset (rangeInt_nodup n) hsub
    exact (sp.perm_of_length_le (by simp [hlen])).symm
  · intro h
    refine ⟨by simpa using h.length_eq, ?_⟩
    intro v hv
    rw [h.count_eq]
    exact List.count_eq_one_of_mem (rangeInt_nodup n)
      (List.mem_map.2 ⟨v, List.mem_range.2 hv, rfl⟩)

theorem foldl_stepPrefix_perm :
    ∀ (js : List Nat) (p : List Int),
      (∀ k, k < js.length → js.getD k 0 ≤ p.length + k) →
      List.Perm (js.foldl stepPrefix p)
        (p ++ (List.range' p.length js.length).map Int.ofNat) := by
  intro js
  induction js with
  | nil => intro p _; simp
  | cons j js ih =>
    intro p hv
    have hj : j ≤ p.length := by simpa using hv 0 (by simp)
    simp only [List.foldl_cons, List.length_cons]
    have h1 := ih (stepPrefix p j) (by
      intro k hk
      have := hv (k + 1) (by simpa using hk)
      rw [stepPrefix_length]
      simp only [List.getD_cons_succ] at this
      omega)
    rw [stepPrefix_length] at h1
    refine h1.trans ?_
    rw [List.range'_succ, List.map_cons]
    have h2 : p ++ Int.ofNat p.length :: List.map Int.ofNat (List.range' (p.length + 1) js.length)
        = (p ++ [(p.length : Int)]) ++ List.map Int.ofNat (List.range' (p.length + 1) js.length) := by
      simp
    rw [h2]
    exact List.Perm.append_right _ (stepPrefix_perm p j hj)

/-- Whatever the draws, the shuffle of `Perm` yields a permutation. -/
theorem permOfDraws_isPermutation (n : Nat) (js : List Nat) (h : ValidDraws n js) :
    IsPermutation n (permOfDraws n js) := by
  cases n with
  | zero =>
    rw [permOfDraws_zero js h]
    exact ⟨rfl, fun v hv => by omega⟩
  | succ n =>
    rw [permOfDraws_eq_foldl n js h, isPermutation_iff]
    obtain ⟨hlen, hb⟩ := h
    have hlen' : js.length = n := by omega
    have := foldl_stepPrefix_perm js [0] (by
      intro k hk
      have := hb k hk
      simp only [List.length_singleton]
      omega)
    refine this.trans ?_
    rw [hlen', List.range_eq_range', List.length_singleton]
    have : List.range' 0 (n + 1) = 0 :: List.range' 1 n := by
      rw [List.range'_succ]
    rw [this]
    rfl

/-- Every permutation of `[0, n]` is reached by the shuffle from some draws. -/
theorem foldl_stepPrefix_surj :
    ∀ (n : Nat) (L : List Int), List.Perm L ((List.range (n + 1)).map Int.ofNat) →
      ∃ js : List Nat, js.length = n ∧ (∀ k, k < js.length → js.getD k 0 ≤ k + 1) ∧
        js.foldl stepPrefix [0] = L := by
  intro n
  induction n with
  | zero =>
    intro L hL
    refine ⟨[], rfl, by simp, ?_⟩
    have h1 : (List.range (0 + 1)).map Int.ofNat = [Int.ofNat 0] := rfl
    rw [h1] at hL
    rw [List.perm_singleton.1 hL]
    rfl
  | succ n ih =>
    intro L hL
    have hlen : L.length = n + 2 := by simpa using hL.length_eq
    have hmem : Int.ofNat (n + 1) ∈ L :=
      hL.mem_iff.2 (List.mem_map.2 ⟨n + 1, List.mem_range.2 (by omega), rfl⟩)
    have hj : List.indexOf (Int.ofNat (n + 1)) L < L.length := List.indexOf_lt_length.2 hmem
    generalize hjdef : List.indexOf (Int.ofNat (n + 1)) L = j at hj
    have hLj : L[j]? = some (Int.ofNat (n + 1)) := by
      rw [← hjdef]
      exact List.getElem?_indexOf hmem
    let p : List Int := (L.set j (L.getD (n + 1) 0)).take (n + 1)
    have hp : p.length = n + 1 := by
      simp only [p, List.length_take, List.length_set]
      omega
    have hstep : stepPrefix p j = L := by
      apply List.ext_getElem?
      intro k
      rw [stepPrefix_getElem? p j k (by omega), hp]
      by_cases hkj : k = j
      · rw [if_pos hkj, hkj, hLj]
        rfl
      · rw [if_neg hkj]
        by_cases hk : k < n + 1
        · rw [if_pos hk]
          simp only [p]
          rw [List.getElem?_take_of_lt hk, List.getElem?_set_ne (fun h => hkj h.symm)]
        · rw [if_neg hk]
          by_cases hk2 : k = n + 1
          · rw [if_pos hk2, hk2]
            have hjn : j < n + 1 := by omega
            have : p.getD j 0 = L.getD (n + 1) 0 := by
              simp only [p, List.getD_eq_getElem?_getD]
              rw [List.getElem?_take_of_lt hjn, List.getElem?_set_self (by omega)]
              rfl
            rw [this, List.getD_eq_getElem _ _ (by omega), List.getElem?_eq_getElem (by omega)]
          · rw [if_neg hk2, List.getElem?_eq_none (by omega)]
    have hperm : List.Perm p ((List.range (n + 1)).map Int.ofNat) := by
      have h1 := stepPrefix_perm p j (by omega)
      rw [hstep, hp] at h1
      have h2 : List.Perm (p ++ [((n + 1 : Nat) : Int)])
          ((List.range (n + 1)).map Int.ofNat ++ [((n + 1 : Nat) : Int)]) := by
        refine h1.symm.trans (hL.trans ?_)
        rw [List.range_succ, List.map_append]
        rfl
      exact (List.perm_append_right_iff _).1 h2
    obtain ⟨js0, hl0, hv0, hf0⟩ := ih p hperm
    refine ⟨js0 ++ [j], by simp [hl0], ?_, ?_⟩
    · intro k hk
      simp only [List.length_append, List.length_singleton] at hk
      by_cases hk0 : k < js0.length
      · rw [List.getD_append _ _ _ _ hk0]
        exact hv0 k hk0
      · have : k = js0.length := by omega
        rw [this, List.getD_append_right _ _ _ _ (le_refl _)]
        simp
        omega
    · rw [List.foldl_append, hf0]
      exact hstep

/-- The shuffle as a map from the draw sequences `(j_1, ..., j_{n-1})` with
`0 ≤ j_i ≤ i` to slices: it lands in the permutations of `[0, n)`, is
injective and is onto. -/
theorem permOfDraws_bijective (n : Nat) :
    (∀ js, ValidDraws n js → IsPermutation n (permOfDraws n js)) ∧
    (∀ js js', ValidDraws n js → ValidDraws n js' →
      permOfDraws n js = permOfDraws n js' → js = js') ∧
    (∀ m, IsPermutation n m → ∃ js, ValidDraws n js ∧ permOfDraws n js = m) := by
  refine ⟨permOfDraws_isPermutation n, ?_, ?_⟩
  · intro js js' h h' heq
    cases n with
    | zero =>
      have e1 : js = [] := List.eq_nil_of_length_eq_zero (by have := h.1; omega)
      have e2 : js' = [] := List.eq_nil_of_length_eq_zero (by have := h'.1; omega)
      rw [e1, e2]
    | succ n =>
      rw [permOfDraws_eq_foldl n js h, permOfDraws_eq_foldl n js' h'] at heq
      have hb : ∀ x ∈ ([0] : List Int), x < (([0] : List Int).length : Int) := by
        intro x hx
        simp only [List.mem_singleton] at hx
        subst hx
        decide
      refine (foldl_stepPrefix_inj js js' [0] [0] (by rw [h.1, h'.1]) rfl hb hb ?_ ?_ heq).1
      · intro k hk
        have := h.2 k hk
        simp only [List.length_singleton]
        omega
      · intro k hk
        have := h'.2 k hk
        simp only [List.length_singleton]
        omega
  · intro m hm
    cases n with
    | zero =>
      refine ⟨[], ⟨rfl, by simp⟩, ?_⟩
      have : m = [] := List.eq_nil_of_length_eq_zero hm.1
      rw [this]
      rfl
    | succ n =>
      obtain ⟨js, hl, hv, hf⟩ := foldl_stepPrefix_surj n m ((isPermutation_iff _ _).1 hm)
      have hvalid : ValidDraws (n + 1) js := ⟨by omega, hv⟩
      exact ⟨js, hvalid, by rw [permOfDraws_eq_foldl n js hvalid, hf]⟩

/-- The shuffle at `n = 3`: the six draw sequences give the six permutations
of `[0, 3)`. -/
theorem permOfDraws_at_three :
    [permOfDraws 3 [0, 0], permOfDraws 3 [0, 1], permOfDraws 3 [0, 2],
      permOfDraws 3 [1, 0], permOfDraws 3 [1, 1], permOfDraws 3 [1, 2]] =
    [[2, 0, 1], [1, 2, 0], [1, 0, 2], [2, 1, 0], [0, 2, 1], [0, 1, 2]] := by
  decide

/-! ## Invalid arguments and the conversions of `Intn` -/

theorem reseed_fault (ks : Keystream) (r : RNG) (e : Fault) (r' : RNG)
    (h : r.reseed ks = (.error e, r')) : e.isInvalidArgument = false := by
  by_cases h1 : r.buf.length < KeySize
  · rw [reseed_short ks r h1] at h
    simp only [Prod.mk.injEq, Except.error.injEq] at h
    rw [← h.1]; rfl
  · by_cases h2 : ValidRounds r.rounds
    · rw [reseed_ok ks r (by omega) h2] at h
      simp at h
    · rw [reseed_bad ks r (by omega) h2] at h
      simp only [Prod.mk.injEq, Except.error.injEq] at h
      rw [← h.1]; rfl

theorem Read_loop_fault (ks : Keystream) (fuel : Nat) :
    ∀ (r : RNG) (b : List UInt8) (n : Nat) (e : Fault) (r' : RNG),
      RNG.Read.loop ks fuel r b n = (.error e, r') → e.isInvalidArgument = false := by
  induction fuel with
  | zero =>
    intro r b n e r' h
    unfold RNG.Read.loop at h
    split at h
    · simp only [Prod.mk.injEq, Except.error.injEq] at h
      rw [← h.1]; rfl
    · simp at h
  | succ fuel ih =>
    intro r b n e r' h
    unfold RNG.Read.loop at h
    split at h
    · simp only at h
      split at h
      · rename_i e1 r1 heq
        simp only [Prod.mk.injEq, Except.error.injEq] at h
        rw [← h.1]
        split at heq
        · exact reseed_fault ks r e1 r1 heq
        · simp at heq
      · split at h
        · simp only [Prod.mk.injEq, Except.error.injEq] at h
          rw [← h.1]; rfl
        · exact ih _ _ _ e r' h
    · simp at h

theorem Read_fault (ks : Keystream) (fuel : Nat) (r : RNG) (b : List UInt8) (e : Fault)
    (r' : RNG) (h : r.Read ks fuel b = (.error e, r')) : e.isInvalidArgument = false := by
  unfold RNG.Read at h
  split at h
  · split at h
    · rename_i e1 r1 heq
      simp only [Prod.mk.injEq, Except.error.injEq] at h
      rw [← h.1]
      exact reseed_fault ks r e1 r1 heq
    · split at h
      · simp only [Prod.mk.injEq, Except.error.injEq] at h
        rw [← h.1]; rfl
      · simp only at h
        split at h
        · rename_i e1 heq
          simp only [Prod.mk.injEq, Except.error.injEq] at h
          rw [← h.1]
          unfold chacha.XORKeyStream at heq
          split at heq
          · simp only [Except.error.injEq] at heq
            rw [← heq]; rfl
          · simp at heq
        · simp at h
  · split at h
    · rename_i e1 r1 heq
      simp only [Prod.mk.injEq, Except.error.injEq] at h
      rw [← h.1]
      exact Read_loop_fault ks fuel r b 0 e1 r1 heq
    · simp at h

theorem again_fault (ks : Keystream) (fuel n : Nat) :
    ∀ (tries : Nat) (r : RNG) (b : List UInt8) (e : Fault) (r' : RNG),
      RNG.Uint64n.again ks fuel n tries r b = (.error e, r') → e.isInvalidArgument = false := by
  intro tries
  induction tries with
  | zero =>
    intro r b e r' h
    simp only [RNG.Uint64n.again, Prod.mk.injEq, Except.error.injEq] at h
    rw [← h.1]; rfl
  | succ t ih =>
    intro r b e r' h
    unfold RNG.Uint64n.again at h
    split at h
    · rename_i e1 r1 heq
      simp only [Prod.mk.injEq, Except.error.injEq] at h
      rw [← h.1]
      exact Read_fault ks fuel r b e1 r1 heq
    · split at h
      · simp only [Prod.mk.injEq, Except.error.injEq] at h
        rw [← h.1]; rfl
      · split at h
        · exact ih _ _ e r' h
        · simp at h

theorem uint64_of_pos (n : Int) (h0 : 0 < n) (h1 : n ≤ MaxInt64) :
    ((uint64 n : Nat) : Int) = n ∧ 0 < uint64 n := by
  unfold uint64
  unfold MaxInt64 at h1
  have hmod : n % 2 ^ 64 = n := Int.emod_eq_of_lt (by omega) (by omega)
  rw [hmod]
  omega

theorem int_of_small (v : Nat) (h : v < 2 ^ 63) : int v = (v : Int) := by
  unfold int
  rw [if_pos h]

theorem Uint64n_fault (ks : Keystream) (fuel : Nat) (r : RNG) (n : Nat) (hn : 0 < n)
    (e : Fault) (r' : RNG) (h : r.Uint64n ks fuel n = (.error e, r')) :
    e.isInvalidArgument = false := by
  unfold RNG.Uint64n at h
  rw [if_neg (by omega)] at h
  exact again_fault ks fuel n fuel r _ e r' h

theorem Uint64n_lt (ks : Keystream) (fuel : Nat) (r : RNG) (n v : Nat) (r' : RNG) (hn : 0 < n)
    (h : r.Uint64n ks fuel n = (.ok v, r')) : v < n := by
  unfold RNG.Uint64n at h
  rw [if_neg (by omega)] at h
  obtain ⟨k, b, _, _, ha, _⟩ := again_ok ks fuel n fuel r _ v r' h
  exact (accept_some n _ v hn ha).2.2

theorem Intn_eq (ks : Keystream) (fuel : Nat) (r : RNG) (n : Int) (h0 : 0 < n) :
    r.Intn ks fuel n =
      ((r.Uint64n ks fuel (uint64 n)).1.map int, (r.Uint64n ks fuel (uint64 n)).2) := by
  unfold RNG.Intn
  rw [if_neg (by omega)]
  cases r.Uint64n ks fuel (uint64 n) with
  | mk res r1 =>
    cases res <;> rfl

/-- What `Intn(n)` returns for a valid `n` is in `[0, n)`, and it is the value
of `Uint64n` unchanged by the conversion. -/
theorem Intn_ok (ks : Keystream) (fuel : Nat) (r : RNG) (n : Int) (h0 : 0 < n)
    (h1 : n ≤ MaxInt64) (j : Int) (r' : RNG) (h : r.Intn ks fuel n = (.ok j, r')) :
    0 ≤ j ∧ j < n ∧
      ∃ v, r.Uint64n ks fuel (uint64 n) = (.ok v, r') ∧ int v = j ∧ (v : Int) = j := by
  rw [Intn_eq ks fuel r n h0] at h
  obtain ⟨hu, hpos⟩ := uint64_of_pos n h0 h1
  cases hres : r.Uint64n ks fuel (uint64 n) with
  | mk res r1 =>
    rw [hres] at h
    cases res with
    | error e => simp [Except.map] at h
    | ok v =>
      simp only [Except.map, Prod.mk.injEq, Except.ok.injEq] at h
      obtain ⟨hj, hr⟩ := h
      subst hr
      have hv := Uint64n_lt ks fuel r (uint64 n) v r1 hpos hres
      have hv63 : v < 2 ^ 63 := by
        unfold MaxInt64 at h1
        omega
      rw [int_of_small v hv63] at hj
      refine ⟨by omega, by omega, v, rfl, ?_, hj⟩
      rw [int_of_small v hv63]
      exact hj

/-- C6. `Uint64n(0)` panics with the invalid-argument failure, and so does
`Intn(n)` for every `n ≤ 0`; the generator is left exactly as it was (nothing
is drawn) and no value is produced. For `n > 0` neither call ends in the
invalid-argument failure. -/
theorem C6_invalid_argument_panics (ks : Keystream) (fuel : Nat) (r : RNG) :
    r.Uint64n ks fuel 0 =
      (.error (.invalidArgument "fastrand: argument to Uint64n is 0"), r) ∧
    (∀ n : Int, n ≤ 0 → r.Intn ks fuel n =
      (.error (.invalidArgument ("fastrand: argument to Intn is <= 0: " ++ toString n)), r)) ∧
    (∀ n : Nat, 0 < n → ∀ msg, (r.Uint64n ks fuel n).1 ≠ .error (.invalidArgument msg)) ∧
    (∀ n : Int, 0 < n → n ≤ MaxInt64 →
      ∀ msg, (r.Intn ks fuel n).1 ≠ .error (.invalidArgument msg)) := by
  refine ⟨rfl, ?_, ?_, ?_⟩
  · intro n hn
    unfold RNG.Intn
    rw [if_pos hn]
  · intro n hn msg h
    have := Uint64n_fault ks fuel r n hn (.invalidArgument msg) (r.Uint64n ks fuel n).2
      (Prod.ext h rfl)
    simp [Fault.isInvalidArgument] at this
  · intro n h0 h1 msg h
    rw [Intn_eq ks fuel r n h0] at h
    simp only at h
    cases hres : r.Uint64n ks fuel (uint64 n) with
    | mk res r1 =>
      rw [hres] at h
      cases res with
      | ok v => simp [Except.map] at h
      | error e =>
        simp only [Except.map, Except.error.injEq] at h
        subst h
        have := Uint64n_fault ks fuel r (uint64 n) (uint64_of_pos n h0 h1).2 _ r1 hres
        simp [Fault.isInvalidArgument] at this

/-- C6 at concrete inputs: on `demoGen`, `Uint64n(0)`, `Intn(0)` and `Intn(-5)`
panic and leave the generator as it was, while `Uint64n(10)` and `Intn(7)`
return. -/
theorem C6_invalid_argument_witness :
    demoGen.Uint64n demoStream 4 0 =
      (.error (.invalidArgument "fastrand: argument to Uint64n is 0"), demoGen) ∧
    demoGen.Intn demoStream 4 0 =
      (.error (.invalidArgument "fastrand: argument to Intn is <= 0: 0"), demoGen) ∧
    demoGen.Intn demoStream 4 (-5) =
      (.error (.invalidArgument "fastrand: argument to Intn is <= 0: -5"), demoGen) ∧
    (demoGen.Uint64n demoStream 4 10).1 ≠
      .error (.invalidArgument "fastrand: argument to Uint64n is 0") ∧
    (demoGen.Uint64n demoStream 4 10).1 = .ok 2 ∧
    (demoGen.Intn demoStream 4 7).1 = .ok 5 :=
  ⟨(C6_invalid_argument_panics demoStream 4 demoGen).1,
    (C6_invalid_argument_panics demoStream 4 demoGen).2.1 0 (by decide),
    (C6_invalid_argument_panics demoStream 4 demoGen).2.1 (-5) (by decide),
    (C6_invalid_argument_panics demoStream 4 demoGen).2.2.1 10 (by decide) _,
    by decide, by decide⟩

/-- C7. For every `int` `n > 0`, `Intn(n)` is `Uint64n(uint64(n))` on the same
generator with the result converted by `int`; `uint64(n)` has the value of
`n`, the result `j` has the value `Uint64n` returned, and `0 ≤ j < n`. -/
theorem C7_Intn_delegates_to_Uint64n (ks : Keystream) (fuel : Nat) (r : RNG) (n : Int)
    (h0 : 0 < n) (h1 : n ≤ MaxInt64) :
    r.Intn ks fuel n =
      ((r.Uint64n ks fuel (uint64 n)).1.map int, (r.Uint64n ks fuel (uint64 n)).2) ∧
    ((uint64 n : Nat) : Int) = n ∧
    ∀ j r', r.Intn ks fuel n = (.ok j, r') →
      0 ≤ j ∧ j < n ∧
        ∃ v, r.Uint64n ks fuel (uint64 n) = (.ok v, r') ∧ int v = j ∧ (v : Int) = j :=
  ⟨Intn_eq ks fuel r n h0, (uint64_of_pos n h0 h1).1,
    fun j r' h => Intn_ok ks fuel r n h0 h1 j r' h⟩

/-- C7 at a concrete input: on `demoGen`, `Intn(7)` returns 5, the value of
`Uint64n(7)`. -/
theorem C7_Intn_witness :
    demoGen.Intn demoStream 4 7 =
      ((demoGen.Uint64n demoStream 4 (uint64 7)).1.map int,
        (demoGen.Uint64n demoStream 4 (uint64 7)).2) ∧
    ((uint64 7 : Nat) : Int) = 7 ∧
    (demoGen.Intn demoStream 4 7).1 = .ok 5 ∧
    (demoGen.Uint64n demoStream 4 (uint64 7)).1 = .ok 5 :=
  ⟨(C7_Intn_delegates_to_Uint64n demoStream 4 demoGen 7 (by decide) (by decide)).1,
    (C7_Intn_delegates_to_Uint64n demoStream 4 demoGen 7 (by decide) (by decide)).2.1,
    by decide, by decide⟩

/-! ## `Perm` on the generator -/

theorem step_length (m : List Int) (i j : Nat) : (Perm.step m i j).length = m.length := by
  simp [Perm.step]

/-- The loop of `Perm` on the generator: when it returns, the slice is the one
the shuffle builds from the values `Intn` drew, each within its bound; when it
does not, one of the calls of `Intn` did not. -/
theorem Perm_loop_spec (ks : Keystream) (fuel : Nat) :
    ∀ (k i : Nat) (r : RNG) (m : List Int), m.length = i + k →
      ((i + k : Nat) : Int) ≤ MaxInt64 →
      (∀ m' r', RNG.Perm.loop ks fuel k i r m = (.ok m', r') →
        ∃ js : List Nat, js.length = k ∧ (∀ t, t < js.length → js.getD t 0 ≤ i + t) ∧
          m' = permOfDraws.loop js i m) ∧
      (∀ e r', RNG.Perm.loop ks fuel k i r m = (.error e, r') →
        ∃ (r0 : RNG) (i' : Nat), i ≤ i' ∧ i' < i + k ∧
          r0.Intn ks fuel ((i' : Int) + 1) = (.error e, r')) := by
  intro k
  induction k with
  | zero =>
    intro i r m _ _
    constructor
    · intro m' r' h
      simp only [RNG.Perm.loop, Prod.mk.injEq, Except.ok.injEq] at h
      exact ⟨[], rfl, by simp, by rw [← h.1]; rfl⟩
    · intro e r' h
      simp [RNG.Perm.loop] at h
  | succ k ih =>
    intro i r m hlen hmax
    have hi1 : (0 : Int) < (i : Int) + 1 := by omega
    have hi2 : (i : Int) + 1 ≤ MaxInt64 := by
      push_cast at hmax
      omega
    cases hdraw : r.Intn ks fuel ((i : Int) + 1) with
    | mk res r1 =>
      cases res with
      | error e1 =>
        constructor
        · intro m' r' h
          simp [RNG.Perm.loop, hdraw] at h
        · intro e r' h
          simp only [RNG.Perm.loop, hdraw, Prod.mk.injEq, Except.error.injEq] at h
          obtain ⟨h1, h2⟩ := h
          subst h1 h2
          exact ⟨r, i, le_refl _, by omega, hdraw⟩
      | ok j =>
        obtain ⟨hj0, hj1, _⟩ := Intn_ok ks fuel r _ hi1 hi2 j r1 hdraw
        have hcheck : ¬ (j < 0 ∨ (m.length : Int) ≤ j ∨ m.length ≤ i) := by
          rw [hlen]
          push_cast
          omega
        have hrec := ih (i + 1) r1 (Perm.step m i j.toNat)
          (by rw [step_length, hlen]; omega)
          (by
            have : i + 1 + k = i + (k + 1) := by omega
            rw [this]
            exact hmax)
        constructor
        · intro m' r' h
          simp only [RNG.Perm.loop, hdraw, if_neg hcheck] at h
          obtain ⟨js, hl, hv, hm⟩ := hrec.1 m' r' h
          refine ⟨j.toNat :: js, by simp [hl], ?_, ?_⟩
          · intro t ht
            cases t with
            | zero =>
              simp only [List.getD_cons_zero]
              omega
            | succ t =>
              simp only [List.getD_cons_succ]
              have := hv t (by simpa using ht)
              omega
          · rw [hm]
            rfl
        · intro e r' h
          simp only [RNG.Perm.loop, hdraw, if_neg hcheck] at h
          obtain ⟨r0, i', h1, h2, h3⟩ := hrec.2 e r' h
          exact ⟨r0, i', by omega, by omega, h3⟩

theorem Perm_unfold (ks : Keystream) (fuel : Nat) (r : RNG) (n : Nat) :
    r.Perm ks fuel (n : Int) =
      RNG.Perm.loop ks fuel (n - 1) 1 r (List.replicate n 0) := by
  unfold RNG.Perm
  rw [if_neg (by omega)]
  simp

/-- C4. For every `n ≥ 0`: whatever values in range `Intn` draws, the slice
`Perm(n)` builds has length `n` and holds each integer of `[0, n)` exactly
once; when `Perm(n)` returns on a generator, its result is that slice for the
values drawn, hence such a permutation; `Perm(n)` fails to return only when a
call of `Intn` does; and `Perm(0)` returns the empty slice, `Perm(1)` the
slice `[0]`, both without drawing. -/
theorem C4_Perm_returns_a_permutation (ks : Keystream) (fuel : Nat) (r : RNG) (n : Nat)
    (hn : (n : Int) ≤ MaxInt64) :
    (∀ js, ValidDraws n js → IsPermutation n (permOfDraws n js)) ∧
    (∀ m r', r.Perm ks fuel (n : Int) = (.ok m, r') →
      IsPermutation n m ∧ ∃ js, ValidDraws n js ∧ m = permOfDraws n js) ∧
    (∀ e r', r.Perm ks fuel (n : Int) = (.error e, r') →
      ∃ (r0 : RNG) (i : Nat), 1 ≤ i ∧ i < n ∧
        r0.Intn ks fuel ((i : Int) + 1) = (.error e, r')) ∧
    r.Perm ks fuel 0 = (.ok [], r) ∧ r.Perm ks fuel 1 = (.ok [0], r) := by
  refine ⟨permOfDraws_isPermutation n, ?_, ?_, rfl, rfl⟩
  · intro m r' h
    cases n with
    | zero =>
      have : r.Perm ks fuel ((0 : Nat) : Int) = (.ok [], r) := rfl
      rw [this] at h
      simp only [Prod.mk.injEq, Except.ok.injEq] at h
      rw [← h.1]
      exact ⟨⟨rfl, fun v hv => by omega⟩, [], ⟨rfl, by simp⟩, rfl⟩
    | succ n =>
      rw [Perm_unfold] at h
      have hspec := Perm_loop_spec ks fuel (n + 1 - 1) 1 r (List.replicate (n + 1) 0)
        (by simp; omega) (by
          have : 1 + (n + 1 - 1) = n + 1 := by omega
          rw [this]; exact hn)
      obtain ⟨js, hl, hv, hm⟩ := hspec.1 m r' h
      have hvalid : ValidDraws (n + 1) js := by
        refine ⟨hl, ?_⟩
        intro t ht
        have := hv t ht
        omega
      have hm' : m = permOfDraws (n + 1) js := hm
      exact ⟨by rw [hm']; exact permOfDraws_isPermutation _ js hvalid, js, hvalid, hm'⟩
  · intro e r' h
    cases n with
    | zero =>
      have : r.Perm ks fuel ((0 : Nat) : Int) = (.ok [], r) := rfl
      rw [this] at h
      simp at h
    | succ n =>
      rw [Perm_unfold] at h
      have hspec := Perm_loop_spec ks fuel (n + 1 - 1) 1 r (List.replicate (n + 1) 0)
        (by simp; omega) (by
          have : 1 + (n + 1 - 1) = n + 1 := by omega
          rw [this]; exact hn)
      obtain ⟨r0, i, h1, h2, h3⟩ := hspec.2 e r' h
      exact ⟨r0, i, h1, by omega, h3⟩

/-- C4 at a concrete input: under `demoStream`, `demoGen.Perm(5)` returns
`[2, 4, 1, 0, 3]`, a permutation of `[0, 5)`. -/
theorem C4_Perm_witness :
    ((5 : Nat) : Int) ≤ MaxInt64 ∧
    (demoGen.Perm demoStream 4 5).1 = .ok [2, 4, 1, 0, 3] ∧
    IsPermutation 5 [2, 4, 1, 0, 3] :=
  ⟨by decide, by decide,
    ((C4_Perm_returns_a_permutation demoStream 4 demoGen 5 (by decide)).2.1
      [2, 4, 1, 0, 3] (demoGen.Perm demoStream 4 5).2 (Prod.ext (by decide) rfl)).1⟩

/-- The slice the loop of `Perm` returns is the one the shuffle builds from
the values the successive calls `Intn(i + 1)` returned, in order; each of
them is in `[0, i]`. -/
theorem Perm_loop_drawn (ks : Keystream) (fuel : Nat) :
    ∀ (k i : Nat) (r : RNG) (m m' : List Int) (r' : RNG), m.length = i + k →
      ((i + k : Nat) : Int) ≤ MaxInt64 →
      RNG.Perm.loop ks fuel k i r m = (.ok m', r') →
      (RNG.Perm.drawn ks fuel k i r).length = k ∧
      (∀ j ∈ RNG.Perm.drawn ks fuel k i r, 0 ≤ j) ∧
      (∀ t, t < k → ((RNG.Perm.drawn ks fuel k i r).map Int.toNat).getD t 0 ≤ i + t) ∧
      m' = permOfDraws.loop ((RNG.Perm.drawn ks fuel k i r).map Int.toNat) i m := by
  intro k
  induction k with
  | zero =>
    intro i r m m' r' _ _ h
    simp only [RNG.Perm.loop, Prod.mk.injEq, Except.ok.injEq] at h
    refine ⟨rfl, ?_, ?_, ?_⟩
    · intro j hj
      simp [RNG.Perm.drawn] at hj
    · intro t ht
      omega
    · rw [← h.1]
      rfl
  | succ k ih =>
    intro i r m m' r' hlen hmax h
    have hi1 : (0 : Int) < (i : Int) + 1 := by omega
    have hi2 : (i : Int) + 1 ≤ MaxInt64 := by
      push_cast at hmax
      omega
    cases hdraw : r.Intn ks fuel ((i : Int) + 1) with
    | mk res r1 =>
      cases res with
      | error e1 =>
        simp [RNG.Perm.loop, hdraw] at h
      | ok j =>
        obtain ⟨hj0, hj1, _⟩ := Intn_ok ks fuel r _ hi1 hi2 j r1 hdraw
        have hcheck : ¬ (j < 0 ∨ (m.length : Int) ≤ j ∨ m.length ≤ i) := by
          rw [hlen]
          push_cast
          omega
        simp only [RNG.Perm.loop, hdraw, if_neg hcheck] at h
        obtain ⟨e1, e2, e3, e4⟩ := ih (i + 1) r1 (Perm.step m i j.toNat) m' r'
          (by rw [step_length, hlen]; omega)
          (by
            have : i + 1 + k = i + (k + 1) := by omega
            rw [this]
            exact hmax)
          h
        have hd : RNG.Perm.drawn ks fuel (k + 1) i r =
            j :: RNG.Perm.drawn ks fuel k (i + 1) r1 := by
          simp only [RNG.Perm.drawn, hdraw]
        rw [hd]
        refine ⟨by simp [e1], ?_, ?_, ?_⟩
        · intro x hx
          simp only [List.mem_cons] at hx
          rcases hx with hx | hx
          · rw [hx]; exact hj0
          · exact e2 x hx
        · intro t ht
          cases t with
          | zero =>
            simp only [List.map_cons, List.getD_cons_zero]
            omega
          | succ t =>
            simp only [List.map_cons, List.getD_cons_succ]
            have := e3 t (by omega)
            omega
        · rw [e4]
          rfl

/-- C5. For every `n`, the map from the draw sequences `(j_1, ..., j_{n-1})`
with `0 ≤ j_i ≤ i` to the slice `Perm(n)` builds from them lands in the
permutations of `[0, n)`, is injective (two different draw sequences never
give the same permutation) and is onto (every permutation comes from some
draw sequence); and this map is what the method `Perm` computes: whenever
`Perm(n)` returns on a generator, the values the successive calls
`Intn(i + 1)` returned are such a draw sequence, and the slice returned is
its image under the map. -/
theorem C5_Perm_draws_to_permutations_bijective (n : Nat) :
    (∀ js, ValidDraws n js → IsPermutation n (permOfDraws n js)) ∧
    (∀ js js', ValidDraws n js → ValidDraws n js' →
      permOfDraws n js = permOfDraws n js' → js = js') ∧
    (∀ m, IsPermutation n m → ∃ js, ValidDraws n js ∧ permOfDraws n js = m) ∧
    (∀ (ks : Keystream) (fuel : Nat) (r : RNG) (m : List Int) (r' : RNG),
      (n : Int) ≤ MaxInt64 → r.Perm ks fuel (n : Int) = (.ok m, r') →
      (∀ j ∈ RNG.Perm.drawn ks fuel (n - 1) 1 r, 0 ≤ j) ∧
      ValidDraws n ((RNG.Perm.drawn ks fuel (n - 1) 1 r).map Int.toNat) ∧
      m = permOfDraws n ((RNG.Perm.drawn ks fuel (n - 1) 1 r).map Int.toNat)) := by
  refine ⟨(permOfDraws_bijective n).1, (permOfDraws_bijective n).2.1,
    (permOfDraws_bijective n).2.2, ?_⟩
  intro ks fuel r m r' hn h
  cases n with
  | zero =>
    have : r.Perm ks fuel ((0 : Nat) : Int) = (.ok [], r) := rfl
    rw [this] at h
    simp only [Prod.mk.injEq, Except.ok.injEq] at h
    rw [← h.1]
    refine ⟨?_, ⟨rfl, ?_⟩, rfl⟩
    · intro j hj
      simp [RNG.Perm.drawn] at hj
    · intro k hk
      simp [RNG.Perm.drawn] at hk
  | succ n =>
    rw [Perm_unfold] at h
    obtain ⟨e1, e2, e3, e4⟩ := Perm_loop_drawn ks fuel (n + 1 - 1) 1 r
      (List.replicate (n + 1) 0) m r' (by simp; omega) (by
        have : 1 + (n + 1 - 1) = n + 1 := by omega
        rw [this]; exact hn) h
    have hn1 : n + 1 - 1 = n := by omega
    rw [hn1] at e1 e2 e3 e4 ⊢
    refine ⟨e2, ⟨by rw [List.length_map, e1, hn1], ?_⟩, e4⟩
    intro t ht
    rw [List.length_map, e1] at ht
    have := e3 t ht
    omega

/-- C5 at a concrete input: on `demoGen64`, `Perm(5)` draws 0, 0, 2, 2 (the
second at the bottom and the third at the top of its range) and returns the
image `[2, 0, 4, 1, 3]` of that draw sequence. -/
theorem C5_Perm_draws_witness :
    ((5 : Nat) : Int) ≤ MaxInt64 ∧
    (demoGen64.Perm demoStream 4 5).1 = .ok [2, 0, 4, 1, 3] ∧
    RNG.Perm.drawn demoStream 4 (5 - 1) 1 demoGen64 = [0, 0, 2, 2] ∧
    permOfDraws 5 [0, 0, 2, 2] = [2, 0, 4, 1, 3] ∧
    ([2, 0, 4, 1, 3] : List Int) =
      permOfDraws 5 ((RNG.Perm.drawn demoStream 4 (5 - 1) 1 demoGen64).map Int.toNat) :=
  ⟨by decide, by decide, by decide, by decide,
    ((C5_Perm_draws_to_permutations_bijective 5).2.2.2 demoStream 4 demoGen64
      [2, 0, 4, 1, 3] (demoGen64.Perm demoStream 4 5).2 (by decide)
      (Prod.ext (by decide) rfl)).2.2⟩

/-! ## Construction -/

/-- C8, at failing inputs. `NewCustom` does not panic on a seed whose length is
not 32: with `bufsize = 64` and 12 rounds, for every cipher, the 3-byte seed
`[1, 2, 3]` gives the generator of the 32-byte seed `[1, 2, 3, 0, ..., 0]`
(it is padded with zeros), and the empty seed and a 40-byte seed are accepted
too. A round count other than 8, 12, 20 does make it panic. -/
theorem C8_NewCustom_accepts_seeds_of_any_length (ks : Keystream) :
    (∃ r, NewCustom ks [1, 2, 3] 64 12 = .ok r ∧
      NewCustom ks ([1, 2, 3] ++ List.replicate 29 0) 64 12 = .ok r) ∧
    (∃ r, NewCustom ks [] 64 12 = .ok r) ∧
    (∃ r, NewCustom ks (List.replicate 40 7) 64 12 = .ok r) ∧
    NewCustom ks (List.replicate 32 0) 64 13 = .error .badRounds := by
  refine ⟨⟨_, NewCustom_ok ks _ 64 12 (by decide) (by decide) (by decide), ?_⟩,
    ⟨_, NewCustom_ok ks _ 64 12 (by decide) (by decide) (by decide)⟩,
    ⟨_, NewCustom_ok ks _ 64 12 (by decide) (by decide) (by decide)⟩,
    NewCustom_bad_rounds ks _ 64 13 (by decide) (by decide) (by decide)⟩
  rw [NewCustom_ok ks _ 64 12 (by decide) (by decide) (by decide)]
  have : (copyAt (List.replicate ((KeySize : Int) + 64).toNat 0) 0
        ([1, 2, 3] ++ List.replicate 29 0)).1 =
      (copyAt (List.replicate ((KeySize : Int) + 64).toNat 0) 0 [1, 2, 3]).1 := by
    decide
  rw [this]

/-! ## The small-request path -/

theorem erase_getElem?_inside (buf : List UInt8) (lo hi i : Nat) (h1 : lo ≤ i) (h2 : i < hi)
    (h3 : hi ≤ buf.length) : (erase buf lo hi)[i]? = some 0 := by
  unfold erase
  rw [List.append_assoc, List.getElem?_append_right (by simp; omega)]
  rw [List.getElem?_append_left (by simp; omega)]
  have hl : (List.take lo buf).length = lo := by simp; omega
  rw [hl, List.getElem?_replicate]
  rw [if_pos (by omega)]

theorem erase_getElem?_outside (buf : List UInt8) (lo hi i : Nat) (h0 : lo ≤ hi)
    (h3 : hi ≤ buf.length) (h : i < lo ∨ hi ≤ i) : (erase buf lo hi)[i]? = buf[i]? := by
  unfold erase
  rcases h with h | h
  · rw [List.append_assoc, List.getElem?_append_left (by simp; omega)]
    exact List.getElem?_take_of_lt h
  · rw [List.getElem?_append_right (by simp; omega)]
    simp only [List.length_append, List.length_take, List.length_replicate, List.getElem?_drop]
    congr 1
    omega

theorem copyAt_fits (b src : List UInt8) (h : b.length ≤ src.length) :
    copyAt b 0 src = (src.take b.length, b.length) := by
  simp [copyAt, h]

/-- A request that fits in what is left of the buffer is served by one pass of
the loop, without a reseed. -/
theorem Read_fits (ks : Keystream) (fuel : Nat) (r : RNG) (b : List UInt8)
    (hfit : r.n + b.length ≤ r.buf.length) (hfuel : 1 ≤ fuel) :
    r.Read ks fuel b =
      (.ok ((r.buf.drop r.n).take b.length, b.length),
        { r with buf := erase r.buf r.n (r.n + b.length), n := r.n + b.length }) := by
  unfold RNG.Read
  rw [if_neg (by omega)]
  by_cases hb : b.length = 0
  · have hnil : b = [] := List.eq_nil_of_length_eq_zero hb
    subst hnil
    unfold RNG.Read.loop
    simp [erase]
  · obtain ⟨f, rfl⟩ : ∃ f, fuel = f + 1 := ⟨fuel - 1, by omega⟩
    unfold RNG.Read.loop
    rw [if_pos (by omega)]
    simp only
    rw [if_neg (by omega)]
    simp only
    rw [if_neg (by omega), copyAt_fits _ _ (by simp; omega)]
    simp only [Nat.zero_add]
    unfold RNG.Read.loop
    rw [if_neg (by simp)]

/-- C9. When the request fits in what is left of the buffer
(`c + L ≤ len(buf)`), `Read` returns with the destination equal to the former
`buf[c : c+L]`; afterwards every byte of `buf[c : c+L]` is zero, every other
byte of the buffer is unchanged, the cursor is `c + L`, and the buffer length
and round count are unchanged. -/
theorem C9_small_read_copies_then_erases (ks : Keystream) (fuel : Nat) (r : RNG)
    (b : List UInt8) (hfit : r.n + b.length ≤ r.buf.length) (hfuel : 1 ≤ fuel) :
    ∃ r', r.Read ks fuel b = (.ok ((r.buf.drop r.n).take b.length, b.length), r') ∧
      ((r.buf.drop r.n).take b.length).length = b.length ∧
      r'.buf.length = r.buf.length ∧
      (∀ i, r.n ≤ i → i < r.n + b.length → r'.buf[i]? = some 0) ∧
      (∀ i, i < r.n ∨ r.n + b.length ≤ i → r'.buf[i]? = r.buf[i]?) ∧
      r'.n = r.n + b.length ∧ r'.rounds = r.rounds := by
  refine ⟨_, Read_fits ks fuel r b hfit hfuel, ?_, ?_, ?_, ?_, rfl, rfl⟩
  · simp; omega
  · exact erase_length _ _ _ (by omega) hfit
  · intro i h1 h2
    exact erase_getElem?_inside _ _ _ _ h1 h2 hfit
  · intro i h
    exact erase_getElem?_outside _ _ _ _ (by omega) hfit h

/-- C9 at a concrete input: `demoGen` (cursor 32, 48-byte buffer) serves an
8-byte request from `buf[32 : 40]` and leaves zeros there. -/
theorem C9_small_read_witness :
    demoGen.n + (List.replicate 8 (7 : UInt8)).length ≤ demoGen.buf.length ∧
    demoGen.Read demoStream 1 (List.replicate 8 7) =
      (.ok ([246, 27, 64, 101, 138, 175, 212, 249], 8),
        { demoGen with
          buf := demoGen.buf.take 32 ++ List.replicate 8 0 ++ demoGen.buf.drop 40, n := 40 }) ∧
    ∃ r', demoGen.Read demoStream 1 (List.replicate 8 7) =
        (.ok ((demoGen.buf.drop demoGen.n).take (List.replicate 8 (7 : UInt8)).length,
          (List.replicate 8 (7 : UInt8)).length), r') ∧
      ((demoGen.buf.drop demoGen.n).take (List.replicate 8 (7 : UInt8)).length).length =
        (List.replicate 8 (7 : UInt8)).length ∧
      r'.buf.length = demoGen.buf.length ∧
      (∀ i, demoGen.n ≤ i → i < demoGen.n + (List.replicate 8 (7 : UInt8)).length →
        r'.buf[i]? = some 0) ∧
      (∀ i, i < demoGen.n ∨ demoGen.n + (List.replicate 8 (7 : UInt8)).length ≤ i →
        r'.buf[i]? = demoGen.buf[i]?) ∧
      r'.n = demoGen.n + (List.replicate 8 (7 : UInt8)).length ∧ r'.rounds = demoGen.rounds :=
  ⟨by decide, by decide,
    C9_small_read_copies_then_erases demoStream 1 demoGen (List.replicate 8 7)
      (by decide) (by decide)⟩

/-! ## The large-request path -/

/-- The state `Read` leaves after a large request: reseeded, with the bytes of
the temporary key erased and the cursor past them. -/
theorem Read_large (ks : Keystream) (fuel : Nat) (r : RNG) (b : List UInt8)
    (hr : ValidRounds r.rounds) (hlen : 2 * KeySize ≤ r.buf.length)
    (hb : r.buf.length < b.length) :
    r.Read ks fuel b =
      (.ok (List.zipWith (fun x k => x ^^^ k) b
          (keystream ks (((reseeded ks r).buf.drop KeySize).take KeySize) zeroNonce r.rounds
            b.length), b.length),
        { reseeded ks r with
          buf := erase (reseeded ks r).buf KeySize (KeySize + KeySize),
          n := KeySize + KeySize }) := by
  unfold RNG.Read
  rw [if_pos hb, reseed_ok ks r (by omega) hr]
  simp only
  rw [if_neg (by rw [reseeded_length, reseeded_n]; omega)]
  simp only [reseeded_n, reseeded_rounds]
  rw [XORKeyStream_ok ks _ _ _ _ hr]
  simp only [Prod.mk.injEq, true_and]
  congr 1
  simp [reseeded_length, keystream_length]
  omega

theorem zero_xor (k : UInt8) : (0 : UInt8) ^^^ k = k := by
  obtain ⟨k⟩ := k
  revert k
  decide

theorem zero_xor_ne_one_xor (k : UInt8) : (0 : UInt8) ^^^ k ≠ (1 : UInt8) ^^^ k := by
  obtain ⟨k⟩ := k
  revert k
  decide

theorem zipWith_zero_xor :
    ∀ (n : Nat) (K : List UInt8), K.length = n →
      List.zipWith (fun x k => x ^^^ k) (List.replicate n (0 : UInt8)) K = K := by
  intro n
  induction n with
  | zero =>
    intro K h
    rw [List.eq_nil_of_length_eq_zero h]
    rfl
  | succ n ih =>
    intro K h
    cases K with
    | nil => simp at h
    | cons k K =>
      rw [List.replicate_succ, List.zipWith_cons_cons, zero_xor, ih K (by simpa using h)]

/-- C10, as amended. On the large-request path (a destination longer than the
buffer, on a generator whose buffer holds at least two keys and whose round
count is valid) `Read` XORs the keystream of the temporary key under the
all-zero nonce into the destination: each byte left is the byte the
destination held XOR the keystream byte. A destination that was all zero is
left holding exactly that keystream. -/
theorem C10_large_read_xors_keystream_into_destination (ks : Keystream) (fuel : Nat)
    (r : RNG) (b : List UInt8) (hr : ValidRounds r.rounds)
    (hlen : 2 * KeySize ≤ r.buf.length) (hb : r.buf.length < b.length) :
    (r.Read ks fuel b).1 =
      .ok (List.zipWith (fun x k => x ^^^ k) b
        (keystream ks (((reseeded ks r).buf.drop KeySize).take KeySize) zeroNonce r.rounds
          b.length), b.length) ∧
    (r.Read ks fuel (List.replicate b.length 0)).1 =
      .ok (keystream ks (((reseeded ks r).buf.drop KeySize).take KeySize) zeroNonce r.rounds
        b.length, b.length) := by
  constructor
  · rw [Read_large ks fuel r b hr hlen hb]
  · rw [Read_large ks fuel r _ hr hlen (by simpa using hb)]
    simp only [List.length_replicate]
    rw [zipWith_zero_xor _ _ (keystream_length _ _ _ _ _)]

/-- C10 as stated fails: on `demoGen64` (64-byte buffer) two 65-byte
destinations, one all 0 and one all 1, are left with different bytes, under
the stand-in cipher and under every other cipher. -/
theorem C10_large_read_depends_on_destination :
    (demoGen64.Read demoStream 0 (List.replicate 65 0)).1 ≠
      (demoGen64.Read demoStream 0 (List.replicate 65 1)).1 ∧
    ¬ ∃ ks : Keystream, (demoGen64.Read ks 0 (List.replicate 65 0)).1 =
      (demoGen64.Read ks 0 (List.replicate 65 1)).1 := by
  have key : ∀ ks : Keystream, (demoGen64.Read ks 0 (List.replicate 65 0)).1 ≠
      (demoGen64.Read ks 0 (List.replicate 65 1)).1 := by
    intro ks h
    rw [Read_large ks 0 demoGen64 _ (by decide) (by decide) (by decide),
      Read_large ks 0 demoGen64 _ (by decide) (by decide) (by decide)] at h
    simp only [List.length_replicate, Except.ok.injEq, Prod.mk.injEq, and_true] at h
    have h0 := congrArg (fun l => l[0]?) h
    simp only [keystream, List.getElem?_zipWith] at h0
    simp at h0
    exact zero_xor_ne_one_xor _ h0
  exact ⟨key demoStream, fun ⟨ks, h⟩ => key ks h⟩

/-- C10 at a concrete input: on `demoGen64` under `demoStream`, a 65-byte
destination of zeros receives the keystream of the temporary key. -/
theorem C10_large_read_witness :
    ValidRounds demoGen64.rounds ∧ 2 * KeySize ≤ demoGen64.buf.length ∧
    demoGen64.buf.length < (List.replicate 65 (0 : UInt8)).length ∧
    (demoGen64.Read demoStream 0 (List.replicate 65 0)).1 =
      .ok (keystream demoStream (((reseeded demoStream demoGen64).buf.drop KeySize).take KeySize)
        zeroNonce demoGen64.rounds 65, 65) :=
  ⟨by decide, by decide, by decide,
    (C10_large_read_xors_keystream_into_destination demoStream 0 demoGen64
      (List.replicate 65 0) (by decide) (by decide) (by decide)).2⟩

/-! ## Where `Read` does complete -/

/-- With at least one spare byte after the key, every pass of the loop of
`Read` copies at least one byte, so the loop ends within `len(b) - n` passes. -/
theorem Read_loop_returns (ks : Keystream) (fuel : Nat) :
    ∀ (r : RNG) (b : List UInt8) (n : Nat), KeySize < r.buf.length → r.n ≤ r.buf.length →
      ValidRounds r.rounds → n ≤ b.length → b.length - n ≤ fuel →
      ∃ b' r', RNG.Read.loop ks fuel r b n = (.ok b', r') ∧ b'.length = b.length ∧
        r'.buf.length = r.buf.length ∧ r'.n ≤ r'.buf.length ∧ r'.rounds = r.rounds := by
  induction fuel with
  | zero =>
    intro r b n _ hn _ _ hfuel
    refine ⟨b, r, ?_, rfl, rfl, hn, rfl⟩
    unfold RNG.Read.loop
    rw [if_neg (by omega)]
  | succ fuel ih =>
    intro r b n hlen hn hr hnb hfuel
    by_cases hlt : n < b.length
    · unfold RNG.Read.loop
      rw [if_pos hlt]
      simp only
      have hstep : ∀ r1 : RNG, r1.buf.length = r.buf.length → r1.n < r1.buf.length →
          r1.rounds = r.rounds →
          ∃ b' r', RNG.Read.loop ks fuel
              { r1 with
                buf := erase r1.buf r1.n (r1.n + (copyAt b n (r1.buf.drop r1.n)).2),
                n := r1.n + (copyAt b n (r1.buf.drop r1.n)).2 }
              (copyAt b n (r1.buf.drop r1.n)).1 (n + (copyAt b n (r1.buf.drop r1.n)).2) =
              (.ok b', r') ∧ b'.length = b.length ∧
            r'.buf.length = r.buf.length ∧ r'.n ≤ r'.buf.length ∧ r'.rounds = r.rounds := by
        intro r1 h1 h2 h3
        have hc : (copyAt b n (r1.buf.drop r1.n)).2 =
            min (b.length - n) (r1.buf.length - r1.n) := by
          simp [copyAt]
        have hc1 : 1 ≤ (copyAt b n (r1.buf.drop r1.n)).2 := by rw [hc]; omega
        have hc2 : (copyAt b n (r1.buf.drop r1.n)).2 ≤ b.length - n := by rw [hc]; omega
        have hc3 : (copyAt b n (r1.buf.drop r1.n)).2 ≤ r1.buf.length - r1.n := by rw [hc]; omega
        have hbl : (copyAt b n (r1.buf.drop r1.n)).1.length = b.length :=
          copyAt_length _ _ _ hnb
        have hel : (erase r1.buf r1.n (r1.n + (copyAt b n (r1.buf.drop r1.n)).2)).length =
            r1.buf.length := erase_length _ _ _ (by omega) (by omega)
        obtain ⟨b', r', e1, e2, e3, e4, e5⟩ := ih
          { r1 with
            buf := erase r1.buf r1.n (r1.n + (copyAt b n (r1.buf.drop r1.n)).2),
            n := r1.n + (copyAt b n (r1.buf.drop r1.n)).2 }
          (copyAt b n (r1.buf.drop r1.n)).1 (n + (copyAt b n (r1.buf.drop r1.n)).2)
          (by simp only; rw [hel, h1]; exact hlen)
          (by simp only; rw [hel]; omega)
          (by simp only; rw [h3]; exact hr)
          (by rw [hbl]; omega)
          (by rw [hbl]; omega)
        refine ⟨b', r', e1, by rw [e2, hbl], ?_, e4, ?_⟩
        · rw [e3]; simp only; rw [hel, h1]
        · rw [e5]; exact h3
      by_cases hfull : r.n = r.buf.length
      · rw [if_pos hfull, reseed_ok ks r (by omega) hr]
        simp only
        rw [if_neg (by rw [reseeded_length, reseeded_n]; omega)]
        exact hstep (reseeded ks r) (reseeded_length ks r)
          (by rw [reseeded_length, reseeded_n]; exact hlen) rfl
      · rw [if_neg hfull]
        simp only
        rw [if_neg (by omega)]
        exact hstep r rfl (by omega) rfl
    · refine ⟨b, r, ?_, rfl, rfl, hn, rfl⟩
      unfold RNG.Read.loop
      rw [if_neg hlt]

/-- On a healthy generator `Read` returns `len(b)` for every destination, given
fuel for `len(b)` passes of its loop, and leaves the generator healthy: so does
every later `Read`. -/
theorem Read_returns (ks : Keystream) (fuel : Nat) (r : RNG) (b : List UInt8)
    (h : r.Healthy) (hfuel : b.length ≤ fuel) :
    ∃ b' r', r.Read ks fuel b = (.ok (b', b.length), r') ∧ b'.length = b.length ∧
      r'.Healthy ∧ r'.buf.length = r.buf.length := by
  obtain ⟨h1, h2, h3⟩ := h
  by_cases hb : r.buf.length < b.length
  · rw [Read_large ks fuel r b h3 h1 hb]
    refine ⟨_, _, rfl, by simp [keystream_length], ⟨?_, ?_, h3⟩, ?_⟩
    · simp only
      rw [erase_length _ _ _ (by omega) (by rw [reseeded_length]; omega), reseeded_length]
      exact h1
    · simp only
      rw [erase_length _ _ _ (by omega) (by rw [reseeded_length]; omega), reseeded_length]
      omega
    · simp only
      rw [erase_length _ _ _ (by omega) (by rw [reseeded_length]; omega), reseeded_length]
  · obtain ⟨b', r', e1, e2, e3, e4, e5⟩ :=
      Read_loop_returns ks fuel r b 0 (by unfold KeySize at *; omega) h2 h3 (Nat.zero_le _)
        (by omega)
    refine ⟨b', r', ?_, e2, ⟨by rw [e3]; exact h1, e4, by rw [e5]; exact h3⟩, e3⟩
    unfold RNG.Read
    rw [if_neg hb, e1]

/-- A generator built by `NewCustom` with `bufsize ≥ 32` is healthy. -/
theorem NewCustom_healthy (ks : Keystream) (seed : List UInt8) (bufsize rounds : Int) (r : RNG)
    (hb : 32 ≤ bufsize) (h : NewCustom ks seed bufsize rounds = .ok r) : r.Healthy := by
  obtain ⟨_, h2, h3, h4, h5⟩ := NewCustom_length ks seed bufsize rounds r h
  refine ⟨?_, ?_, by rw [h5]; exact h2⟩
  · unfold KeySize at *
    omega
  · rw [h4]
    unfold KeySize at *
    omega

/-! ## The rejection threshold -/

/-- C15. For `0 < n ≤ MaxUint64`, the subtraction in
`max := math.MaxUint64 - math.MaxUint64%n` does not wrap around, and `max` is
the largest multiple of `n` not exceeding `MaxUint64`: `n` divides `max`,
`max ≤ MaxUint64` and `max + n > MaxUint64`. -/
theorem C15_max_is_largest_multiple (n : Nat) (h0 : 0 < n) (h1 : n ≤ MaxUint64) :
    MaxUint64 % n ≤ MaxUint64 ∧
    sub64 MaxUint64 (MaxUint64 % n) = Uint64n.max n ∧
    n ∣ Uint64n.max n ∧
    Uint64n.max n ≤ MaxUint64 ∧
    MaxUint64 < Uint64n.max n + n ∧
    ∀ k, n ∣ k → k ≤ MaxUint64 → k ≤ Uint64n.max n := by
  have hmod : MaxUint64 % n < n := Nat.mod_lt _ h0
  have hM : MaxUint64 = 2 ^ 64 - 1 := rfl
  refine ⟨Nat.mod_le _ _, ?_, ?_, max_le n, ?_, ?_⟩
  · unfold sub64 Uint64n.max
    have h2 : MaxUint64 % n % 2 ^ 64 = MaxUint64 % n := Nat.mod_eq_of_lt (by omega)
    rw [h2]
    have h3 : MaxUint64 + 2 ^ 64 - MaxUint64 % n = (MaxUint64 - MaxUint64 % n) + 2 ^ 64 := by
      omega
    rw [h3, Nat.add_mod_right]
    exact Nat.mod_eq_of_lt (by omega)
  · rw [max_eq_mul]
    exact Dvd.intro _ rfl
  · unfold Uint64n.max
    omega
  · rintro k ⟨j, rfl⟩ hk
    rw [max_eq_mul]
    apply Nat.mul_le_mul_left
    rw [Nat.le_div_iff_mul_le h0, Nat.mul_comm]
    exact hk

/-- C15 at `n = 10`. -/
theorem C15_max_witness :
    sub64 MaxUint64 (MaxUint64 % 10) = Uint64n.max 10 ∧ Uint64n.max 10 = 18446744073709551610 ∧
    10 ∣ Uint64n.max 10 ∧ MaxUint64 < Uint64n.max 10 + 10 :=
  ⟨(C15_max_is_largest_multiple 10 (by decide) (by decide)).2.1, by decide,
    (C15_max_is_largest_multiple 10 (by decide) (by decide)).2.2.1,
    (C15_max_is_largest_multiple 10 (by decide) (by decide)).2.2.2.2.1⟩

theorem max_of_large (n : Nat) (h1 : n ≤ MaxUint64) (h2 : MaxUint64 < 2 * n) :
    Uint64n.max n = n := by
  have hq : MaxUint64 / n = 1 :=
    Nat.div_eq_of_lt_le (by omega) (by omega)
  rw [max_eq_mul, hq, Nat.mul_one]

/-- The draws `Uint64n(n)` accepts are those below `max`. -/
theorem accepted_draws_eq_range (n : Nat) :
    (Finset.range (2 ^ 64)).filter (fun i => (Uint64n.accept n i).isSome) =
      Finset.range (Uint64n.max n) := by
  ext i
  have := max_le n
  have hM : MaxUint64 = 2 ^ 64 - 1 := rfl
  simp only [Finset.mem_filter, Finset.mem_range, Uint64n.accept]
  split
  · simp; omega
  · simp; omega

/-- C16. For `0 < n ≤ MaxUint64` the threshold `max` is at least
`MaxUint64 - MaxUint64/2 = 2^63`, with equality at `n = MaxUint64/2 + 1`; so
the accepted draws, `max` in number, are at least half of the `2^64` draws. -/
theorem C16_max_at_least_half (n : Nat) (h0 : 0 < n) (h1 : n ≤ MaxUint64) :
    MaxUint64 - MaxUint64 / 2 ≤ Uint64n.max n ∧
    MaxUint64 - MaxUint64 / 2 = 2 ^ 63 ∧
    Uint64n.max (MaxUint64 / 2 + 1) = MaxUint64 - MaxUint64 / 2 ∧
    ((Finset.range (2 ^ 64)).filter (fun i => (Uint64n.accept n i).isSome)).card =
      Uint64n.max n ∧
    2 ^ 64 ≤ 2 * Uint64n.max n := by
  have hM : MaxUint64 = 2 ^ 64 - 1 := rfl
  have key : 2 ^ 63 ≤ Uint64n.max n := by
    by_cases hbig : MaxUint64 < 2 * n
    · rw [max_of_large n h1 hbig]
      omega
    · have hmod : MaxUint64 % n < n := Nat.mod_lt _ h0
      unfold Uint64n.max
      omega
  refine ⟨by omega, by decide, by decide, ?_, by omega⟩
  rw [accepted_draws_eq_range, Finset.card_range]

/-- C16 at `n = 3` and at the minimizer `n = 2^63`. -/
theorem C16_max_witness :
    MaxUint64 - MaxUint64 / 2 ≤ Uint64n.max 3 ∧ Uint64n.max 3 = MaxUint64 ∧
    Uint64n.max (2 ^ 63) = 2 ^ 63 :=
  ⟨(C16_max_at_least_half 3 (by decide) (by decide)).1, by decide, by decide⟩

/-- C17, at a failing input. The bound `n = MaxUint64/3 + 1` is one `Intn` can
pass on (`0 < n ≤ MaxUint64/2`), and line 77 gives it the threshold
`max = 2 * n = 12297829382473034412`, below `MaxUint64 - MaxUint64/4`, the
value at `n = MaxUint64/4 + 1` that the NOTE of `Intn` calls the minimum; the
draw `i = max` lies below that value and is discarded all the same. -/
theorem C17_max_below_three_quarters :
    0 < MaxUint64 / 3 + 1 ∧ MaxUint64 / 3 + 1 ≤ MaxUint64 / 2 ∧
    Uint64n.max (MaxUint64 / 3 + 1) = 12297829382473034412 ∧
    MaxUint64 - MaxUint64 / 4 = 13835058055282163712 ∧
    Uint64n.max (MaxUint64 / 4 + 1) = MaxUint64 - MaxUint64 / 4 ∧
    Uint64n.max (MaxUint64 / 3 + 1) < MaxUint64 - MaxUint64 / 4 ∧
    Uint64n.accept (MaxUint64 / 3 + 1) 12297829382473034412 = none := by
  decide

/-- What the code does guarantee for the bounds `Intn` can pass on,
`0 < n ≤ MaxUint64/2`: the threshold `max` is at least `2 * (MaxUint64/3 + 1)`,
with equality at `n = MaxUint64/3 + 1`; at `n = MaxUint64/4 + 1` it is
`MaxUint64 - MaxUint64/4`. -/
theorem max_at_least_two_thirds (n : Nat) (h0 : 0 < n) (h1 : n ≤ MaxUint64 / 2) :
    2 * (MaxUint64 / 3 + 1) ≤ Uint64n.max n ∧
    Uint64n.max (MaxUint64 / 3 + 1) = 2 * (MaxUint64 / 3 + 1) ∧
    Uint64n.max (MaxUint64 / 4 + 1) = MaxUint64 - MaxUint64 / 4 := by
  refine ⟨?_, by decide, by decide⟩
  have hM : MaxUint64 = 18446744073709551615 := by decide
  rw [hM] at h1 ⊢
  have h3 : (18446744073709551615 : Nat) / 3 = 6148914691236517205 := by decide
  have h2 : (18446744073709551615 : Nat) / 2 = 9223372036854775807 := by decide
  rw [h3]
  rw [h2] at h1
  by_cases hn : 6148914691236517205 < n
  · have hq : 18446744073709551615 / n = 2 :=
      Nat.div_eq_of_lt_le (by omega) (by omega)
    rw [max_eq_mul, hM, hq]
    omega
  · by_cases hn2 : n = 6148914691236517205
    · subst hn2
      decide
    · have hmod : 18446744073709551615 % n < n := Nat.mod_lt _ h0
      unfold Uint64n.max
      rw [hM]
      omega

/-- The bound of `max_at_least_two_thirds` at `n = 5`. -/
theorem max_at_least_two_thirds_at_five :
    (0 : Nat) < 5 ∧ 5 ≤ MaxUint64 / 2 ∧ 2 * (MaxUint64 / 3 + 1) ≤ Uint64n.max 5 ∧
    Uint64n.max 5 = MaxUint64 :=
  ⟨by decide, by decide, (max_at_least_two_thirds 5 (by decide) (by decide)).1, by decide⟩

/-! ## The state invariant -/

theorem reseed_eq_ok (ks : Keystream) (r r1 : RNG) (u : Unit) (h : r.reseed ks = (.ok u, r1)) :
    r1 = reseeded ks r ∧ KeySize ≤ r.buf.length ∧ ValidRounds r.rounds := by
  by_cases h1 : r.buf.length < KeySize
  · rw [reseed_short ks r h1] at h
    simp at h
  · by_cases h2 : ValidRounds r.rounds
    · rw [reseed_ok ks r (by omega) h2] at h
      simp only [Prod.mk.injEq] at h
      exact ⟨h.2.symm, by omega, h2⟩
    · rw [reseed_bad ks r (by omega) h2] at h
      simp at h

theorem reseeded_inv (ks : Keystream) (r : RNG) (h : KeySize ≤ r.buf.length) :
    RNG.Inv r.buf.length r.rounds (reseeded ks r) := by
  refine ⟨reseeded_length ks r, rfl, le_refl _, ?_, ?_⟩
  · rw [reseeded_length, reseeded_n]; exact h
  · intro i h1 h2
    rw [reseeded_n] at h2
    omega

/-- Erasing from the cursor on and moving the cursor past the erased bytes
keeps the invariant. -/
theorem advance_inv (len : Nat) (rounds : Int) (r : RNG) (c : Nat) (h : RNG.Inv len rounds r)
    (hc : r.n + c ≤ r.buf.length) :
    RNG.Inv len rounds { r with buf := erase r.buf r.n (r.n + c), n := r.n + c } := by
  obtain ⟨h1, h2, h3, h4, h5⟩ := h
  have hl : (erase r.buf r.n (r.n + c)).length = r.buf.length :=
    erase_length _ _ _ (by omega) hc
  refine ⟨by simp only; rw [hl, h1], h2, by simp only; omega, by simp only; rw [hl]; exact hc, ?_⟩
  intro i hi1 hi2
  simp only at hi2 ⊢
  by_cases hi : i < r.n
  · rw [erase_getElem?_outside _ _ _ _ (by omega) hc (Or.inl hi)]
    exact h5 i hi1 hi
  · exact erase_getElem?_inside _ _ _ _ (by omega) hi2 hc

theorem Read_loop_inv (ks : Keystream) (len : Nat) (rounds : Int) (fuel : Nat) :
    ∀ (r : RNG) (b : List UInt8) (n : Nat) (b' : List UInt8) (r' : RNG),
      RNG.Inv len rounds r → RNG.Read.loop ks fuel r b n = (.ok b', r') →
      RNG.Inv len rounds r' := by
  induction fuel with
  | zero =>
    intro r b n b' r' hinv h
    unfold RNG.Read.loop at h
    split at h
    · simp at h
    · simp only [Prod.mk.injEq] at h
      rw [← h.2]; exact hinv
  | succ fuel ih =>
    intro r b n b' r' hinv h
    unfold RNG.Read.loop at h
    split at h
    · simp only at h
      have hstep : ∀ r1 : RNG, RNG.Inv len rounds r1 →
          (if r1.buf.length < r1.n then (Except.error Fault.outOfRange, r1)
            else
              match copyAt b n (r1.buf.drop r1.n) with
              | (b1, c) => RNG.Read.loop ks fuel
                  { r1 with buf := erase r1.buf r1.n (r1.n + c), n := r1.n + c } b1 (n + c)) =
            (.ok b', r') → RNG.Inv len rounds r' := by
        intro r1 hinv1 h1
        split at h1
        · simp at h1
        · refine ih _ _ _ b' r' (advance_inv len rounds r1 _ hinv1 ?_) h1
          simp only [copyAt, List.length_drop]
          omega
      by_cases hfull : r.n = r.buf.length
      · rw [if_pos hfull] at h
        cases hre : r.reseed ks with
        | mk res r1 =>
          rw [hre] at h
          cases res with
          | error e => simp at h
          | ok u =>
            obtain ⟨e1, e2, _⟩ := reseed_eq_ok ks r r1 u hre
            simp only at h
            refine hstep r1 ?_ h
            rw [e1]
            have := reseeded_inv ks r e2
            rw [hinv.1, hinv.2.1] at this
            exact this
      · rw [if_neg hfull] at h
        simp only at h
        exact hstep r hinv h
    · simp only [Prod.mk.injEq] at h
      rw [← h.2]; exact hinv

/-- Every call of `Read` that completes keeps the invariant. -/
theorem Read_inv (ks : Keystream) (len : Nat) (rounds : Int) (fuel : Nat) (r : RNG)
    (b : List UInt8) (x : List UInt8 × Nat) (r' : RNG) (hinv : RNG.Inv len rounds r)
    (h : r.Read ks fuel b = (.ok x, r')) : RNG.Inv len rounds r' := by
  unfold RNG.Read at h
  split at h
  · cases hre : r.reseed ks with
    | mk res r1 =>
      rw [hre] at h
      cases res with
      | error e => simp at h
      | ok u =>
        obtain ⟨e1, e2, _⟩ := reseed_eq_ok ks r r1 u hre
        simp only at h
        split at h
        · simp at h
        · rename_i hlen
          split at h
          · simp at h
          · simp only [Prod.mk.injEq] at h
            rw [← h.2]
            have hinv1 : RNG.Inv len rounds r1 := by
              rw [e1]
              have := reseeded_inv ks r e2
              rw [hinv.1, hinv.2.1] at this
              exact this
            have htk : ((r1.buf.drop r1.n).take KeySize).length = KeySize := by
              simp only [List.length_take, List.length_drop]
              omega
            rw [htk]
            exact advance_inv len rounds r1 KeySize hinv1 (by omega)
  · split at h
    · simp at h
    · rename_i b1 r1 heq
      simp only [Prod.mk.injEq] at h
      rw [← h.2]
      exact Read_loop_inv ks len rounds fuel r b 0 b1 r1 hinv heq

theorem afterReads_inv (ks : Keystream) (len : Nat) (rounds : Int) :
    ∀ (calls : List (Nat × List UInt8)) (r r' : RNG), RNG.Inv len rounds r →
      r.afterReads ks calls = some r' → RNG.Inv len rounds r' := by
  intro calls
  induction calls with
  | nil =>
    intro r r' hinv h
    simp only [RNG.afterReads, Option.some.injEq] at h
    rw [← h]; exact hinv
  | cons call calls ih =>
    intro r r' hinv h
    obtain ⟨fuel, b⟩ := call
    unfold RNG.afterReads at h
    cases hrd : r.Read ks fuel b with
    | mk res r1 =>
      rw [hrd] at h
      cases res with
      | error e => simp at h
      | ok x =>
        simp only at h
        exact ih r1 r' (Read_inv ks len rounds fuel r b x r1 hinv hrd) h

theorem NewCustom_inv (ks : Keystream) (seed : List UInt8) (bufsize rounds : Int) (r : RNG)
    (h : NewCustom ks seed bufsize rounds = .ok r) : RNG.Inv r.buf.length rounds r := by
  obtain ⟨_, _, _, h4, h5⟩ := NewCustom_length ks seed bufsize rounds r h
  refine ⟨rfl, h5, by rw [h4], ?_, ?_⟩
  · obtain ⟨_, _, h3, _, _⟩ := NewCustom_length ks seed bufsize rounds r h
    rw [h4]
    have : (0 : Int) ≤ bufsize := (NewCustom_length ks seed bufsize rounds r h).1
    omega
  · intro i h1 h2
    rw [h4] at h2
    omega

/-- C12. For a generator built by `NewCustom(seed, bufsize, rounds)` and every
sequence of calls of `Read` that complete, the state reached has
`len(buf) = 32 + bufsize`, the round count `rounds`, a cursor with
`32 ≤ cursor ≤ len(buf)`, and zeros in `buf[32 : cursor]`. -/
theorem C12_state_invariant (ks : Keystream) (seed : List UInt8) (bufsize rounds : Int)
    (r0 : RNG) (calls : List (Nat × List UInt8)) (r : RNG)
    (h0 : NewCustom ks seed bufsize rounds = .ok r0)
    (h : r0.afterReads ks calls = some r) :
    (r.buf.length : Int) = 32 + bufsize ∧ r.rounds = rounds ∧
    32 ≤ r.n ∧ r.n ≤ r.buf.length ∧
    ∀ i, 32 ≤ i → i < r.n → r.buf[i]? = some 0 := by
  obtain ⟨_, _, h3, _, _⟩ := NewCustom_length ks seed bufsize rounds r0 h0
  obtain ⟨e1, e2, e3, e4, e5⟩ :=
    afterReads_inv ks r0.buf.length rounds calls r0 r (NewCustom_inv ks seed bufsize rounds r0 h0) h
  refine ⟨?_, e2, e3, e4, e5⟩
  rw [e1, h3]
  rfl

/-- C12 at a concrete input: `demoGen`, built by `NewCustom` with
`bufsize = 16`, after reads of 8 and of 12 bytes. -/
theorem C12_state_invariant_witness :
    NewCustom demoStream (List.replicate 32 3) 16 20 = .ok demoGen ∧
    demoGen.afterReads demoStream [(4, List.replicate 8 0), (4, List.replicate 12 0)] =
      some demoGenLater ∧
    ((demoGenLater.buf.length : Int) = 32 + 16 ∧ demoGenLater.rounds = 20 ∧
      32 ≤ demoGenLater.n ∧ demoGenLater.n ≤ demoGenLater.buf.length ∧
      ∀ i, 32 ≤ i → i < demoGenLater.n → demoGenLater.buf[i]? = some 0) :=
  ⟨by decide, by decide,
    C12_state_invariant demoStream (List.replicate 32 3) 16 20 demoGen
      [(4, List.replicate 8 0), (4, List.replicate 12 0)] demoGenLater (by decide) (by decide)⟩

/-! ## The calls of the cipher -/

theorem reseedT_fst (ks : Keystream) (r : RNG) : (r.reseedT ks).1 = r.reseed ks := by
  unfold RNG.reseedT RNG.reseed
  split
  · rfl
  · split <;> rfl

theorem loopT_fst (ks : Keystream) (fuel : Nat) :
    ∀ (r : RNG) (b : List UInt8) (n : Nat),
      (RNG.Read.loopT ks fuel r b n).1 = RNG.Read.loop ks fuel r b n := by
  induction fuel with
  | zero =>
    intro r b n
    unfold RNG.Read.loopT RNG.Read.loop
    split <;> rfl
  | succ fuel ih =>
    intro r b n
    unfold RNG.Read.loopT RNG.Read.loop
    split
    · simp only
      by_cases hfull : r.n = r.buf.length
      · rw [if_pos hfull, if_pos hfull, ← reseedT_fst]
        cases hre : r.reseedT ks with
        | mk res ev =>
          obtain ⟨x, r1⟩ := res
          cases x with
          | error e => rfl
          | ok u =>
            simp only
            split
            · rfl
            · exact ih _ _ _
      · rw [if_neg hfull, if_neg hfull]
        simp only
        split
        · rfl
        · exact ih _ _ _
    · rfl

theorem ReadT_fst (ks : Keystream) (fuel : Nat) (r : RNG) (b : List UInt8) :
    (r.ReadT ks fuel b).1 = r.Read ks fuel b := by
  unfold RNG.ReadT RNG.Read
  split
  · rw [← reseedT_fst]
    cases hre : r.reseedT ks with
    | mk res ev =>
      obtain ⟨x, r1⟩ := res
      cases x with
      | error e => rfl
      | ok u =>
        simp only
        split
        · rfl
        · split <;> rfl
  · rw [← loopT_fst]
    cases hl : RNG.Read.loopT ks fuel r b 0 with
    | mk res ev =>
      obtain ⟨x, r1⟩ := res
      cases x <;> rfl

theorem reseedT_ok (ks : Keystream) (r : RNG) (hlen : KeySize ≤ r.buf.length)
    (hr : ValidRounds r.rounds) :
    r.reseedT ks = ((.ok (), reseeded ks r), [.reseed (r.buf.take KeySize)]) := by
  unfold RNG.reseedT
  rw [if_neg (by omega), XORKeyStream_ok ks _ _ _ _ hr]
  rfl

/-- The calls of the cipher on the large-request path: one reseed, then one
call on the destination under the 32 bytes that follow the key in the
reseeded buffer. -/
theorem ReadT_large (ks : Keystream) (fuel : Nat) (r : RNG) (b : List UInt8)
    (hr : ValidRounds r.rounds) (hlen : 2 * KeySize ≤ r.buf.length)
    (hb : r.buf.length < b.length) :
    (r.ReadT ks fuel b).2 =
      [.reseed (r.buf.take KeySize),
        .direct (((reseeded ks r).buf.drop KeySize).take KeySize) b.length] := by
  unfold RNG.ReadT
  rw [if_pos hb, reseedT_ok ks r (by omega) hr]
  simp only
  rw [if_neg (by rw [reseeded_length, reseeded_n]; omega)]
  simp only [reseeded_n, reseeded_rounds]
  rw [XORKeyStream_ok ks _ _ _ _ hr]
  rfl

/-- C13, as amended. On the large-request path `Read` makes exactly one reseed
and then one call of the cipher on the destination, and the temporary key of
that call is `buf[32 : 64]` of the buffer as it stands right after the
reseed, the 32 bytes that follow the key region (`buf[r.n : r.n+KeySize]` with
`r.n = KeySize`); the new `buf[:32]` is not passed on. -/
theorem C13_large_read_key_follows_key_region (ks : Keystream) (fuel : Nat) (r : RNG)
    (b : List UInt8) (hr : ValidRounds r.rounds) (hlen : 2 * KeySize ≤ r.buf.length)
    (hb : r.buf.length < b.length) :
    (r.ReadT ks fuel b).1 = r.Read ks fuel b ∧
    (r.ReadT ks fuel b).2 =
      [.reseed (r.buf.take KeySize),
        .direct (((reseeded ks r).buf.drop KeySize).take KeySize) b.length] ∧
    reseedCount (r.ReadT ks fuel b).2 = 1 := by
  refine ⟨ReadT_fst ks fuel r b, ReadT_large ks fuel r b hr hlen hb, ?_⟩
  rw [ReadT_large ks fuel r b hr hlen hb]
  rfl

/-- C13 as amended, at a concrete input: `demoGen64` on a 65-byte destination. -/
theorem C13_large_read_witness :
    ValidRounds demoGen64.rounds ∧ 2 * KeySize ≤ demoGen64.buf.length ∧
    demoGen64.buf.length < (List.replicate 65 (0 : UInt8)).length ∧
    (demoGen64.ReadT demoStream 0 (List.replicate 65 0)).2 =
      [.reseed (demoGen64.buf.take KeySize),
        .direct (((reseeded demoStream demoGen64).buf.drop KeySize).take KeySize)
          (List.replicate 65 (0 : UInt8)).length] :=
  ⟨by decide, by decide, by decide,
    (C13_large_read_key_follows_key_region demoStream 0 demoGen64 (List.replicate 65 0)
      (by decide) (by decide) (by decide)).2.1⟩

/-- For every cipher there is a generator state in which the 32 bytes after
the key region differ from the key region once reseeded. -/
theorem tmpKey_ne_key_region (ks : Keystream) :
    ∃ r : RNG, ValidRounds r.rounds ∧ r.buf.length = 2 * KeySize ∧
      ((reseeded ks r).buf.drop KeySize).take KeySize ≠ (reseeded ks r).buf.take KeySize := by
  have head : ∀ x : UInt8,
      ((((reseeded ks ⟨List.replicate 32 0 ++ x :: List.replicate 31 0, 32, 12⟩).buf.drop
          KeySize).take KeySize)[0]? =
        some (x ^^^ ks (List.replicate 32 0) zeroNonce 12 32)) ∧
      (((reseeded ks ⟨List.replicate 32 0 ++ x :: List.replicate 31 0, 32, 12⟩).buf.take
          KeySize)[0]? =
        some ((0 : UInt8) ^^^ ks (List.replicate 32 0) zeroNonce 12 0)) := by
    intro x
    have hk : (List.replicate 32 (0 : UInt8) ++ x :: List.replicate 31 0).take KeySize =
        List.replicate 32 0 := by
      simp [KeySize, List.take_append_eq_append_take]
    constructor
    · simp only [reseeded, hk, keystream]
      simp [KeySize, List.getElem?_take, List.getElem?_zipWith, List.getElem?_append_right]
    · simp only [reseeded, hk, keystream]
      simp [KeySize, List.getElem?_take, List.getElem?_zipWith, List.getElem?_append_left]
  by_cases h : (0 : UInt8) ^^^ ks (List.replicate 32 0) zeroNonce 12 32 =
      (0 : UInt8) ^^^ ks (List.replicate 32 0) zeroNonce 12 0
  · refine ⟨⟨List.replicate 32 0 ++ 1 :: List.replicate 31 0, 32, 12⟩, by decide, by decide, ?_⟩
    intro heq
    have h1 := (head 1).1
    rw [heq, (head 1).2, ← h] at h1
    simp only [Option.some.injEq] at h1
    exact zero_xor_ne_one_xor _ h1
  · refine ⟨⟨List.replicate 32 0 ++ 0 :: List.replicate 31 0, 32, 12⟩, by decide, by decide, ?_⟩
    intro heq
    have h1 := (head 0).1
    rw [heq, (head 0).2] at h1
    simp only [Option.some.injEq] at h1
    exact h h1.symm

/-- C13 as stated fails: on `demoGen64` under `demoStream` the key passed to
the cipher for a 65-byte destination is not the new `buf[:32]`; and under no
cipher is the key passed the new `buf[:32]` in every state. -/
theorem C13_large_read_key_is_not_key_region :
    (demoGen64.ReadT demoStream 0 (List.replicate 65 0)).2 =
      [.reseed (demoGen64.buf.take 32),
        .direct [203, 121, 199, 201, 91, 89, 207, 185, 123, 201, 199, 89, 75, 201, 191, 73, 203,
          217, 71, 73, 251, 185, 79, 217, 219, 73, 71, 249, 75, 73, 223, 201] 65] ∧
    (reseeded demoStream demoGen64).buf.take 32 =
      [200, 186, 68, 202, 216, 90, 76, 250, 184, 74, 196, 218, 72, 74, 252, 74, 72, 218, 196,
        74, 184, 250, 76, 90, 216, 202, 68, 186, 200, 74, 92, 202] ∧
    (demoGen64.ReadT demoStream 0 (List.replicate 65 0)).2 ≠
      [.reseed (demoGen64.buf.take 32),
        .direct ((reseeded demoStream demoGen64).buf.take 32) 65] ∧
    ¬ ∃ ks : Keystream, ∀ (r : RNG) (b : List UInt8), ValidRounds r.rounds →
      2 * KeySize ≤ r.buf.length → r.buf.length < b.length →
      (r.ReadT ks 0 b).2 =
        [.reseed (r.buf.take KeySize), .direct ((reseeded ks r).buf.take KeySize) b.length] := by
  refine ⟨by decide, by decide, by decide, ?_⟩
  rintro ⟨ks, hall⟩
  obtain ⟨r, hr, hlen, hne⟩ := tmpKey_ne_key_region ks
  have h1 := hall r (List.replicate (r.buf.length + 1) 0) hr (by omega) (by simp)
  rw [ReadT_large ks 0 r _ hr (by omega) (by simp)] at h1
  simp only [List.cons.injEq, Event.direct.injEq, and_true, true_and] at h1
  exact hne h1

theorem erase_take (buf : List UInt8) (lo hi : Nat) (h : lo ≤ buf.length) :
    (erase buf lo hi).take lo = buf.take lo := by
  unfold erase
  rw [List.append_assoc, List.take_append_of_le_length (by simp; omega)]
  simp

theorem erase_drop (buf : List UInt8) (lo hi : Nat) (h0 : lo ≤ hi) (h : hi ≤ buf.length) :
    (erase buf lo hi).drop hi = buf.drop hi := by
  unfold erase
  have hl : (List.take lo buf ++ List.replicate (hi - lo) (0 : UInt8)).length = hi := by
    simp; omega
  rw [List.drop_append_of_le_length (by omega), List.drop_of_length_le (by omega)]
  rfl

/-- C14. After `Read` on a destination longer than the buffer (a generator
with `bufsize ≥ 32`, in any state): the bytes `buf[32 : 64]`, which were the
temporary key passed to the cipher, are zero; the cursor is 64; every other
byte of the buffer is as the reseed left it, in particular the key region
`buf[:32]`, the key of the next reseed; and a later `Read` that fits is served
from `buf[64:]`. -/
theorem C14_large_read_erases_temporary_key (ks : Keystream) (fuel : Nat) (r : RNG)
    (b : List UInt8) (hr : ValidRounds r.rounds) (hlen : 2 * KeySize ≤ r.buf.length)
    (hb : r.buf.length < b.length) :
    ∃ x r', r.Read ks fuel b = (.ok x, r') ∧
      (r.ReadT ks fuel b).2 =
        [.reseed (r.buf.take KeySize),
          .direct (((reseeded ks r).buf.drop KeySize).take KeySize) b.length] ∧
      (∀ i, KeySize ≤ i → i < 2 * KeySize → r'.buf[i]? = some 0) ∧
      r'.n = 2 * KeySize ∧
      (∀ i, i < KeySize ∨ 2 * KeySize ≤ i → r'.buf[i]? = (reseeded ks r).buf[i]?) ∧
      r'.buf.take KeySize = (reseeded ks r).buf.take KeySize ∧
      ∀ (fuel2 : Nat) (b2 : List UInt8), 1 ≤ fuel2 → 2 * KeySize + b2.length ≤ r.buf.length →
        (r'.Read ks fuel2 b2).1 =
          .ok (((reseeded ks r).buf.drop (2 * KeySize)).take b2.length, b2.length) := by
  have hrl : 2 * KeySize ≤ (reseeded ks r).buf.length := by rw [reseeded_length]; exact hlen
  have h2 : KeySize + KeySize = 2 * KeySize := by omega
  refine ⟨_, _, Read_large ks fuel r b hr hlen hb, ReadT_large ks fuel r b hr hlen hb,
    ?_, ?_, ?_, ?_, ?_⟩
  · intro i h1 h3
    exact erase_getElem?_inside _ _ _ _ h1 (by omega) (by omega)
  · simp only
    omega
  · intro i hi
    exact erase_getElem?_outside _ _ _ _ (by omega) (by omega) (by omega)
  · exact erase_take _ _ _ (by omega)
  · intro fuel2 b2 hf hfit
    have hel : (erase (reseeded ks r).buf KeySize (KeySize + KeySize)).length =
        (reseeded ks r).buf.length := erase_length _ _ _ (by omega) (by omega)
    rw [Read_fits ks fuel2 _ b2 (by simp only; rw [hel, reseeded_length]; omega) hf]
    simp only
    rw [erase_drop _ _ _ (by omega) (by omega), h2]

/-- C14 at a concrete input: `demoGen64` on a 65-byte destination. -/
theorem C14_large_read_witness :
    ValidRounds demoGen64.rounds ∧ 2 * KeySize ≤ demoGen64.buf.length ∧
    demoGen64.buf.length < (List.replicate 65 (0 : UInt8)).length ∧
    (demoGen64.Read demoStream 0 (List.replicate 65 0)).2 =
      { buf := (reseeded demoStream demoGen64).buf.take 32 ++ List.replicate 32 0,
        n := 64, rounds := 20 } ∧
    ∃ x r', demoGen64.Read demoStream 0 (List.replicate 65 0) = (.ok x, r') ∧
      (demoGen64.ReadT demoStream 0 (List.replicate 65 0)).2 =
        [.reseed (demoGen64.buf.take KeySize),
          .direct (((reseeded demoStream demoGen64).buf.drop KeySize).take KeySize)
            (List.replicate 65 (0 : UInt8)).length] ∧
      (∀ i, KeySize ≤ i → i < 2 * KeySize → r'.buf[i]? = some 0) ∧
      r'.n = 2 * KeySize ∧
      (∀ i, i < KeySize ∨ 2 * KeySize ≤ i →
        r'.buf[i]? = (reseeded demoStream demoGen64).buf[i]?) ∧
      r'.buf.take KeySize = (reseeded demoStream demoGen64).buf.take KeySize ∧
      ∀ (fuel2 : Nat) (b2 : List UInt8), 1 ≤ fuel2 →
        2 * KeySize + b2.length ≤ demoGen64.buf.length →
        (r'.Read demoStream fuel2 b2).1 =
          .ok (((reseeded demoStream demoGen64).buf.drop (2 * KeySize)).take b2.length,
            b2.length) :=
  ⟨by decide, by decide, by decide, by decide,
    C14_large_read_erases_temporary_key demoStream 0 demoGen64 (List.replicate 65 0)
      (by decide) (by decide) (by decide)⟩

/-- C20. For a generator built by `NewCustom(seed, bufsize, rounds)`, in any
state reached by completed reads, `Read` on a destination longer than the
buffer returns exactly when `bufsize ≥ 32`, and panics with a slice out of
range exactly when `bufsize < 32`: the slice `buf[32 : 64]` lies inside the
buffer exactly when `len(buf) = 32 + bufsize ≥ 64`. -/
theorem C20_large_read_in_range_iff (ks : Keystream) (fuel : Nat) (seed : List UInt8)
    (bufsize rounds : Int) (r0 : RNG) (calls : List (Nat × List UInt8)) (r : RNG)
    (b : List UInt8) (h0 : NewCustom ks seed bufsize rounds = .ok r0)
    (h : r0.afterReads ks calls = some r) (hb : r.buf.length < b.length) :
    ((∃ x, (r.Read ks fuel b).1 = .ok x) ↔ 32 ≤ bufsize) ∧
    ((r.Read ks fuel b).1 = .error .outOfRange ↔ bufsize < 32) ∧
    (r.n + KeySize ≤ r.buf.length → 32 ≤ bufsize) ∧
    ((reseeded ks r).n + KeySize ≤ (reseeded ks r).buf.length ↔ 32 ≤ bufsize) ∧
    (r.buf.length : Int) = 32 + bufsize := by
  obtain ⟨hb0, hvr, h3, _, _⟩ := NewCustom_length ks seed bufsize rounds r0 h0
  obtain ⟨e1, e2, e3, e4, _⟩ :=
    afterReads_inv ks r0.buf.length rounds calls r0 r (NewCustom_inv ks seed bufsize rounds r0 h0) h
  have hlen : (r.buf.length : Int) = 32 + bufsize := by rw [e1, h3]; rfl
  have hr : ValidRounds r.rounds := by rw [e2]; exact hvr
  have hK : KeySize = 32 := rfl
  have key : 32 ≤ bufsize → ∃ x, (r.Read ks fuel b).1 = .ok x := by
    intro hge
    rw [Read_large ks fuel r b hr (by omega) hb]
    exact ⟨_, rfl⟩
  have bad : bufsize < 32 → (r.Read ks fuel b).1 = .error .outOfRange := by
    intro hlt
    exact Read_large_panics ks fuel r b (by omega) (by omega) hr hb
  refine ⟨⟨?_, key⟩, ⟨?_, bad⟩, by omega, ?_, hlen⟩
  · rintro ⟨x, hx⟩
    by_contra hlt
    rw [bad (by omega)] at hx
    simp at hx
  · intro herr
    by_contra hge
    obtain ⟨x, hx⟩ := key (by omega)
    rw [hx] at herr
    simp at herr
  · rw [reseeded_length, reseeded_n]
    omega

/-- C20 at concrete inputs: `demoGen` (`bufsize = 16`) panics on a 49-byte
destination. -/
theorem C20_large_read_witness :
    NewCustom demoStream (List.replicate 32 3) 16 20 = .ok demoGen ∧
    demoGen.buf.length < (List.replicate 49 (0 : UInt8)).length ∧
    (demoGen.Read demoStream 0 (List.replicate 49 0)).1 = .error .outOfRange ∧
    ((demoGen.Read demoStream 0 (List.replicate 49 0)).1 = .error .outOfRange ↔
      (16 : Int) < 32) :=
  ⟨by decide, by decide, by decide,
    (C20_large_read_in_range_iff demoStream 0 (List.replicate 32 3) 16 20 demoGen [] demoGen
      (List.replicate 49 0) (by decide) (by decide) (by decide)).2.1⟩

/-! ## The reseeds of the small-request path -/

theorem reseedsNeeded_zero (want avail s : Nat) (h : want ≤ avail) :
    reseedsNeeded want avail s = 0 := by
  unfold reseedsNeeded
  rw [if_pos h]

/-- A pass that starts on a used-up buffer: one reseed, then `s` fresh bytes. -/
theorem reseedsNeeded_full (want s : Nat) (hs : 0 < s) (hw : 0 < want) :
    reseedsNeeded want 0 s = 1 + reseedsNeeded (want - min want s) (s - min want s) s := by
  unfold reseedsNeeded
  rw [if_neg (by omega)]
  by_cases h : want ≤ s
  · rw [if_pos (by omega)]
    exact Nat.div_eq_of_lt_le (by omega) (by omega)
  · rw [if_neg (by omega)]
    have h1 : want - 0 + (s - 1) = (want - min want s - (s - min want s) + (s - 1)) + s := by
      omega
    rw [h1, Nat.add_div_right _ hs]
    omega

/-- A pass that starts with bytes left: no reseed. -/
theorem reseedsNeeded_some_left (want avail s : Nat) :
    reseedsNeeded want avail s =
      reseedsNeeded (want - min want avail) (avail - min want avail) s := by
  unfold reseedsNeeded
  by_cases h : want ≤ avail
  · rw [if_pos h, if_pos (by omega)]
  · rw [if_neg h, if_neg (by omega)]
    have h1 : want - min want avail - (avail - min want avail) = want - avail := by omega
    rw [h1]

/-- The number `reseedsNeeded` is the ceiling of `(want - avail) / s`. -/
theorem reseedsNeeded_ceil (want avail s : Nat) (hs : 0 < s) (h : avail < want) :
    want - avail ≤ reseedsNeeded want avail s * s ∧
      reseedsNeeded want avail s * s < want - avail + s := by
  unfold reseedsNeeded
  rw [if_neg (by omega)]
  have h1 := Nat.div_add_mod (want - avail + (s - 1)) s
  have h2 := Nat.mod_lt (want - avail + (s - 1)) hs
  rw [Nat.mul_comm] at h1
  constructor <;> omega

theorem reseedCount_append (l1 l2 : List Event) :
    reseedCount (l1 ++ l2) = reseedCount l1 + reseedCount l2 := by
  unfold reseedCount
  exact List.countP_append _ _ _

/-- The loop of `Read` on a buffer with at least one spare byte: it returns,
after exactly `reseedsNeeded` reseeds. -/
theorem loopT_reseeds (ks : Keystream) (fuel : Nat) :
    ∀ (r : RNG) (b : List UInt8) (n : Nat), KeySize < r.buf.length → r.n ≤ r.buf.length →
      ValidRounds r.rounds → n ≤ b.length → b.length - n ≤ fuel →
      reseedCount (RNG.Read.loopT ks fuel r b n).2 =
        reseedsNeeded (b.length - n) (r.buf.length - r.n) (r.buf.length - KeySize) := by
  induction fuel with
  | zero =>
    intro r b n _ _ _ _ hfuel
    unfold RNG.Read.loopT
    rw [if_neg (by omega), reseedsNeeded_zero _ _ _ (by omega)]
    rfl
  | succ fuel ih =>
    intro r b n hlen hn hr hnb hfuel
    by_cases hlt : n < b.length
    · unfold RNG.Read.loopT
      rw [if_pos hlt]
      simp only
      have hstep : ∀ r1 : RNG, r1.buf.length = r.buf.length → r1.n < r1.buf.length →
          r1.rounds = r.rounds →
          reseedCount (RNG.Read.loopT ks fuel
              { r1 with
                buf := erase r1.buf r1.n (r1.n + (copyAt b n (r1.buf.drop r1.n)).2),
                n := r1.n + (copyAt b n (r1.buf.drop r1.n)).2 }
              (copyAt b n (r1.buf.drop r1.n)).1 (n + (copyAt b n (r1.buf.drop r1.n)).2)).2 =
            reseedsNeeded (b.length - n - min (b.length - n) (r1.buf.length - r1.n))
              (r1.buf.length - r1.n - min (b.length - n) (r1.buf.length - r1.n))
              (r.buf.length - KeySize) := by
        intro r1 h1 h2 h3
        have hc : (copyAt b n (r1.buf.drop r1.n)).2 =
            min (b.length - n) (r1.buf.length - r1.n) := by
          simp [copyAt]
        have hbl : (copyAt b n (r1.buf.drop r1.n)).1.length = b.length :=
          copyAt_length _ _ _ hnb
        have hel : (erase r1.buf r1.n (r1.n + (copyAt b n (r1.buf.drop r1.n)).2)).length =
            r1.buf.length := erase_length _ _ _ (by omega) (by rw [hc]; omega)
        rw [ih _ _ _ (by simp only; rw [hel, h1]; exact hlen)
          (by simp only; rw [hel, hc]; omega)
          (by simp only; rw [h3]; exact hr)
          (by rw [hbl, hc]; omega)
          (by rw [hbl, hc]; omega)]
        simp only
        rw [hel, hbl, hc, h1]
        congr 1 <;> omega
      by_cases hfull : r.n = r.buf.length
      · rw [if_pos hfull, reseedT_ok ks r (by omega) hr]
        simp only
        rw [if_neg (by rw [reseeded_length, reseeded_n]; omega)]
        simp only
        rw [reseedCount_append, hstep (reseeded ks r) (reseeded_length ks r)
          (by rw [reseeded_length, reseeded_n]; exact hlen) rfl]
        rw [reseeded_length, reseeded_n, hfull, Nat.sub_self,
          reseedsNeeded_full _ _ (by omega) (by omega)]
        rfl
      · rw [if_neg hfull]
        simp only
        rw [if_neg (by omega)]
        simp only
        rw [reseedCount_append, hstep r rfl (by omega) rfl,
          ← reseedsNeeded_some_left _ _ _]
        exact Nat.zero_add _
    · unfold RNG.Read.loopT
      rw [if_neg hlt, reseedsNeeded_zero _ _ _ (by omega)]
      rfl

theorem ReadT_small_log (ks : Keystream) (fuel : Nat) (r : RNG) (b : List UInt8)
    (hb : b.length ≤ r.buf.length) :
    (r.ReadT ks fuel b).2 = (RNG.Read.loopT ks fuel r b 0).2 := by
  unfold RNG.ReadT
  rw [if_neg (by omega)]
  cases hl : RNG.Read.loopT ks fuel r b 0 with
  | mk res ev =>
    obtain ⟨x, r1⟩ := res
    cases x <;> rfl

/-- C19. On a generator with `s = bufsize ≥ 1` spare bytes, cursor `c` and a
destination of `L ≤ len(buf)` bytes, the loop of `Read` ends (the call
returns `L`), with no reseed when `L ≤ len(buf) - c`, and otherwise with
exactly `⌈(L - (len(buf) - c)) / s⌉` reseeds: the least `k` with
`L - (len(buf) - c) ≤ k * s`. -/
theorem C19_small_read_reseed_count (ks : Keystream) (fuel : Nat) (r : RNG) (b : List UInt8)
    (hs : KeySize < r.buf.length) (hn : r.n ≤ r.buf.length) (hr : ValidRounds r.rounds)
    (hb : b.length ≤ r.buf.length) (hfuel : b.length ≤ fuel) :
    (r.ReadT ks fuel b).1 = r.Read ks fuel b ∧
    (∃ b' r', r.Read ks fuel b = (.ok (b', b.length), r')) ∧
    (b.length ≤ r.buf.length - r.n → reseedCount (r.ReadT ks fuel b).2 = 0) ∧
    (r.buf.length - r.n < b.length →
      reseedCount (r.ReadT ks fuel b).2 =
        (b.length - (r.buf.length - r.n) + (r.buf.length - KeySize - 1)) /
          (r.buf.length - KeySize) ∧
      b.length - (r.buf.length - r.n) ≤
        reseedCount (r.ReadT ks fuel b).2 * (r.buf.length - KeySize) ∧
      reseedCount (r.ReadT ks fuel b).2 * (r.buf.length - KeySize) <
        b.length - (r.buf.length - r.n) + (r.buf.length - KeySize)) := by
  have hcount := loopT_reseeds ks fuel r b 0 hs hn hr (Nat.zero_le _) (by omega)
  rw [← ReadT_small_log ks fuel r b hb, Nat.sub_zero] at hcount
  refine ⟨ReadT_fst ks fuel r b, ?_, ?_, ?_⟩
  · obtain ⟨b', r', e1, _⟩ := Read_loop_returns ks fuel r b 0 hs hn hr (Nat.zero_le _) (by omega)
    refine ⟨b', r', ?_⟩
    unfold RNG.Read
    rw [if_neg (by omega), e1]
  · intro h
    rw [hcount, reseedsNeeded_zero _ _ _ h]
  · intro h
    rw [hcount]
    refine ⟨?_, reseedsNeeded_ceil _ _ _ (by omega) h⟩
    unfold reseedsNeeded
    rw [if_neg (by omega)]

/-- C19 at concrete inputs: on `demoGen` (16 spare bytes, all 16 unread) a
40-byte request makes `⌈24 / 16⌉ = 2` reseeds and a 16-byte request none. -/
theorem C19_small_read_witness :
    KeySize < demoGen.buf.length ∧ demoGen.n ≤ demoGen.buf.length ∧
    (List.replicate 40 (0 : UInt8)).length ≤ demoGen.buf.length ∧
    reseedCount (demoGen.ReadT demoStream 40 (List.replicate 40 0)).2 = 2 ∧
    reseedCount (demoGen.ReadT demoStream 40 (List.replicate 16 0)).2 = 0 ∧
    reseedCount (demoGen.ReadT demoStream 40 (List.replicate 40 0)).2 =
      ((List.replicate 40 (0 : UInt8)).length - (demoGen.buf.length - demoGen.n) +
        (demoGen.buf.length - KeySize - 1)) / (demoGen.buf.length - KeySize) :=
  ⟨by decide, by decide, by decide, by decide, by decide,
    ((C19_small_read_reseed_count demoStream 40 demoGen (List.replicate 40 0)
      (by decide) (by decide) (by decide) (by decide) (by decide)).2.2.2 (by decide)).1⟩

/-! ## Small reads as one stream -/

theorem nextBytes_add (ks : Keystream) (k m : Nat) :
    ∀ r : RNG, RNG.nextBytes ks (k + m) r =
      ((RNG.nextBytes ks k r).1 ++ (RNG.nextBytes ks m (RNG.nextBytes ks k r).2).1,
        (RNG.nextBytes ks m (RNG.nextBytes ks k r).2).2) := by
  induction k with
  | zero =>
    intro r
    simp [RNG.nextBytes]
  | succ k ih =>
    intro r
    have : k + 1 + m = (k + m) + 1 := by omega
    rw [this]
    simp only [RNG.nextBytes, ih, List.cons_append]

theorem erase_erase (buf : List UInt8) (n c : Nat) (h : n + 1 + c ≤ buf.length) :
    erase (erase buf n (n + 1)) (n + 1) (n + 1 + c) = erase buf n (n + 1 + c) := by
  have hl : (erase buf n (n + 1)).length = buf.length := erase_length _ _ _ (by omega) (by omega)
  apply List.ext_getElem?
  intro i
  by_cases h1 : i < n
  · rw [erase_getElem?_outside _ _ _ _ (by omega) (by omega) (Or.inl (by omega)),
      erase_getElem?_outside _ _ _ _ (by omega) (by omega) (Or.inl h1),
      erase_getElem?_outside _ _ _ _ (by omega) (by omega) (Or.inl h1)]
  · by_cases h2 : i < n + 1
    · rw [erase_getElem?_outside _ _ _ _ (by omega) (by omega) (Or.inl h2),
        erase_getElem?_inside _ _ _ _ (by omega) h2 (by omega),
        erase_getElem?_inside _ _ _ _ (by omega) (by omega) (by omega)]
    · by_cases h3 : i < n + 1 + c
      · rw [erase_getElem?_inside _ _ _ _ (by omega) h3 (by omega),
          erase_getElem?_inside _ _ _ _ (by omega) h3 (by omega)]
      · rw [erase_getElem?_outside _ _ _ _ (by omega) (by omega) (Or.inr (by omega)),
          erase_getElem?_outside _ _ _ _ (by omega) (by omega) (Or.inr (by omega)),
          erase_getElem?_outside _ _ _ _ (by omega) (by omega) (Or.inr (by omega))]

/-- Bytes that are still in the buffer come out as they lie there, without a
reseed, and are erased. -/
theorem nextBytes_within (ks : Keystream) (c : Nat) :
    ∀ r : RNG, r.n + c ≤ r.buf.length →
      RNG.nextBytes ks c r =
        ((r.buf.drop r.n).take c,
          { r with buf := erase r.buf r.n (r.n + c), n := r.n + c }) := by
  induction c with
  | zero =>
    intro r h
    have : erase r.buf r.n r.n = r.buf := by
      simp [erase]
    simp [RNG.nextBytes, this]
  | succ c ih =>
    intro r h
    have hne : ¬ r.n = r.buf.length := by omega
    have hb : r.nextByte ks =
        (r.buf.getD r.n 0, { r with buf := erase r.buf r.n (r.n + 1), n := r.n + 1 }) := by
      unfold RNG.nextByte
      simp only [if_neg hne]
    have hl : (erase r.buf r.n (r.n + 1)).length = r.buf.length :=
      erase_length _ _ _ (by omega) (by omega)
    rw [RNG.nextBytes, hb]
    simp only
    rw [ih _ (by simp only; rw [hl]; omega)]
    simp only
    rw [erase_drop _ _ _ (by omega) (by omega), erase_erase _ _ _ (by omega)]
    have hd : r.buf.drop r.n = r.buf.getD r.n 0 :: r.buf.drop (r.n + 1) := by
      rw [List.getD_eq_getElem _ _ (by omega)]
      exact List.drop_eq_getElem_cons (by omega)
    rw [hd, List.take_succ_cons]
    have e1 : r.n + 1 + c = r.n + (c + 1) := by omega
    rw [e1]

theorem nextByte_reseeded (ks : Keystream) (r : RNG) (hfull : r.n = r.buf.length)
    (hs : KeySize < r.buf.length) : r.nextByte ks = (reseeded ks r).nextByte ks := by
  unfold RNG.nextByte
  have h1 : ¬ (reseeded ks r).n = (reseeded ks r).buf.length := by
    rw [reseeded_length, reseeded_n]; omega
  simp only [if_pos hfull, if_neg h1]

theorem nextBytes_reseeded (ks : Keystream) (c : Nat) (r : RNG) (hc : 0 < c)
    (hfull : r.n = r.buf.length) (hs : KeySize < r.buf.length) :
    RNG.nextBytes ks c r = RNG.nextBytes ks c (reseeded ks r) := by
  obtain ⟨k, rfl⟩ : ∃ k, c = k + 1 := ⟨c - 1, by omega⟩
  simp only [RNG.nextBytes, nextByte_reseeded ks r hfull hs]

/-- The loop of `Read` on a buffer with at least one spare byte writes the
next bytes of the stream into what is left of the destination. -/
theorem Read_loop_eq_nextBytes (ks : Keystream) (fuel : Nat) :
    ∀ (r : RNG) (b : List UInt8) (n : Nat), KeySize < r.buf.length → r.n ≤ r.buf.length →
      ValidRounds r.rounds → n ≤ b.length → b.length - n ≤ fuel →
      RNG.Read.loop ks fuel r b n =
        (.ok (b.take n ++ (RNG.nextBytes ks (b.length - n) r).1),
          (RNG.nextBytes ks (b.length - n) r).2) := by
  induction fuel with
  | zero =>
    intro r b n _ _ _ hnb hfuel
    unfold RNG.Read.loop
    rw [if_neg (by omega)]
    have h0 : b.length - n = 0 := by omega
    rw [h0, List.take_of_length_le (by omega)]
    simp [RNG.nextBytes]
  | succ fuel ih =>
    intro r b n hlen hn hr hnb hfuel
    by_cases hlt : n < b.length
    · unfold RNG.Read.loop
      rw [if_pos hlt]
      simp only
      have hstep : ∀ r1 : RNG, r1.buf.length = r.buf.length → r1.n < r1.buf.length →
          r1.rounds = r.rounds →
          RNG.Read.loop ks fuel
              { r1 with
                buf := erase r1.buf r1.n (r1.n + (copyAt b n (r1.buf.drop r1.n)).2),
                n := r1.n + (copyAt b n (r1.buf.drop r1.n)).2 }
              (copyAt b n (r1.buf.drop r1.n)).1 (n + (copyAt b n (r1.buf.drop r1.n)).2) =
            (.ok (b.take n ++ (RNG.nextBytes ks (b.length - n) r1).1),
              (RNG.nextBytes ks (b.length - n) r1).2) := by
        intro r1 h1 h2 h3
        have hc : (copyAt b n (r1.buf.drop r1.n)).2 =
            min (b.length - n) (r1.buf.length - r1.n) := by
          simp [copyAt]
        generalize hcdef : min (b.length - n) (r1.buf.length - r1.n) = c at hc
        have hb1 : (copyAt b n (r1.buf.drop r1.n)).1 =
            b.take n ++ (r1.buf.drop r1.n).take c ++ b.drop (n + c) := by
          simp only [copyAt, List.length_drop, hcdef]
        have hbl : (copyAt b n (r1.buf.drop r1.n)).1.length = b.length :=
          copyAt_length _ _ _ hnb
        have hel : (erase r1.buf r1.n (r1.n + c)).length = r1.buf.length :=
          erase_length _ _ _ (by omega) (by omega)
        rw [hc]
        rw [ih _ _ _ (by simp only; rw [hel, h1]; exact hlen)
          (by simp only; rw [hel]; omega)
          (by simp only; rw [h3]; exact hr)
          (by rw [hbl]; omega)
          (by rw [hbl]; omega)]
        have hsplit : b.length - n = c + (b.length - (n + c)) := by omega
        have hchunk := nextBytes_within ks c r1 (by omega)
        have hR : RNG.nextBytes ks (b.length - n) r1 =
            ((r1.buf.drop r1.n).take c ++
                (RNG.nextBytes ks (b.length - (n + c))
                  { r1 with buf := erase r1.buf r1.n (r1.n + c), n := r1.n + c }).1,
              (RNG.nextBytes ks (b.length - (n + c))
                  { r1 with buf := erase r1.buf r1.n (r1.n + c), n := r1.n + c }).2) := by
          rw [hsplit, nextBytes_add, hchunk]
        rw [hR, hbl, hb1]
        have htake : (b.take n ++ (r1.buf.drop r1.n).take c ++ b.drop (n + c)).take (n + c) =
            b.take n ++ (r1.buf.drop r1.n).take c := by
          apply List.take_left'
          simp only [List.length_append, List.length_take, List.length_drop]
          omega
        rw [htake, List.append_assoc]
      by_cases hfull : r.n = r.buf.length
      · rw [if_pos hfull, reseed_ok ks r (by omega) hr]
        simp only
        rw [if_neg (by rw [reseeded_length, reseeded_n]; omega)]
        rw [nextBytes_reseeded ks _ r (by omega) hfull hlen]
        exact hstep (reseeded ks r) (reseeded_length ks r)
          (by rw [reseeded_length, reseeded_n]; exact hlen) rfl
      · rw [if_neg hfull]
        simp only
        rw [if_neg (by omega)]
        exact hstep r rfl (by omega) rfl
    · unfold RNG.Read.loop
      rw [if_neg hlt]
      have h0 : b.length - n = 0 := by omega
      rw [h0, List.take_of_length_le (by omega)]
      simp [RNG.nextBytes]

/-- A small request on a buffer with at least one spare byte returns the next
bytes of the stream. -/
theorem Read_eq_nextBytes (ks : Keystream) (fuel : Nat) (r : RNG) (b : List UInt8)
    (hs : KeySize < r.buf.length) (hn : r.n ≤ r.buf.length) (hr : ValidRounds r.rounds)
    (hb : b.length ≤ r.buf.length) (hfuel : b.length ≤ fuel) :
    r.Read ks fuel b =
      (.ok ((RNG.nextBytes ks b.length r).1, b.length), (RNG.nextBytes ks b.length r).2) := by
  unfold RNG.Read
  rw [if_neg (by omega),
    Read_loop_eq_nextBytes ks fuel r b 0 hs hn hr (Nat.zero_le _) (by omega)]
  simp

/-- C18. On a generator with at least one spare byte (`bufsize ≥ 1`), in any
state, for destinations of `k` and `m` bytes with `k + m ≤ len(buf)`: `Read`
of `k` bytes followed by `Read` of `m` bytes returns, concatenated, the bytes
that a single `Read` of `k + m` bytes returns, and leaves the same generator
state. -/
theorem C18_small_reads_are_one_stream (ks : Keystream) (f1 f2 f : Nat) (r : RNG)
    (b1 b2 b : List UInt8) (hs : KeySize < r.buf.length) (hn : r.n ≤ r.buf.length)
    (hr : ValidRounds r.rounds) (hlen : b.length = b1.length + b2.length)
    (hfit : b1.length + b2.length ≤ r.buf.length)
    (hf1 : b1.length ≤ f1) (hf2 : b2.length ≤ f2) (hf : b.length ≤ f) :
    ∃ o1 o2 r1 r2,
      r.Read ks f1 b1 = (.ok (o1, b1.length), r1) ∧
      r1.Read ks f2 b2 = (.ok (o2, b2.length), r2) ∧
      r.Read ks f b = (.ok (o1 ++ o2, b.length), r2) := by
  obtain ⟨b', r', e1, _, e3, e4, e5⟩ :=
    Read_loop_returns ks f1 r b1 0 hs hn hr (Nat.zero_le _) (by omega)
  rw [Read_loop_eq_nextBytes ks f1 r b1 0 hs hn hr (Nat.zero_le _) (by omega)] at e1
  simp only [Nat.sub_zero, Prod.mk.injEq, Except.ok.injEq] at e1
  obtain ⟨_, hr'⟩ := e1
  rw [← hr'] at e3 e4 e5
  refine ⟨(RNG.nextBytes ks b1.length r).1,
    (RNG.nextBytes ks b2.length (RNG.nextBytes ks b1.length r).2).1,
    (RNG.nextBytes ks b1.length r).2,
    (RNG.nextBytes ks b2.length (RNG.nextBytes ks b1.length r).2).2, ?_, ?_, ?_⟩
  · exact Read_eq_nextBytes ks f1 r b1 hs hn hr (by omega) hf1
  · exact Read_eq_nextBytes ks f2 _ b2 (by rw [e3]; exact hs) e4 (by rw [e5]; exact hr)
      (by rw [e3]; omega) hf2
  · rw [Read_eq_nextBytes ks f r b hs hn hr (by omega) hf, hlen, nextBytes_add]

/-- C18 at a concrete input: on `demoGen` (16 unread bytes), reads of 10 and
of 20 bytes against one read of 30 bytes; the reseed falls inside the second
read. -/
theorem C18_small_reads_witness :
    KeySize < demoGen.buf.length ∧ demoGen.n ≤ demoGen.buf.length ∧
    (demoGen.Read demoStream 30 (List.replicate 30 0)).1 =
      .ok ([246, 27, 64, 101, 138, 175, 212, 249, 30, 67] ++
        [104, 141, 178, 215, 252, 33, 61, 98, 135, 172, 209, 246, 27, 64, 101, 138, 175, 212,
          249, 30], 30) ∧
    ∃ o1 o2 r1 r2,
      demoGen.Read demoStream 10 (List.replicate 10 0) =
        (.ok (o1, (List.replicate 10 (0 : UInt8)).length), r1) ∧
      r1.Read demoStream 20 (List.replicate 20 0) =
        (.ok (o2, (List.replicate 20 (0 : UInt8)).length), r2) ∧
      demoGen.Read demoStream 30 (List.replicate 30 0) =
        (.ok (o1 ++ o2, (List.replicate 30 (0 : UInt8)).length), r2) :=
  ⟨by decide, by decide, by decide,
    C18_small_reads_are_one_stream demoStream 10 20 30 demoGen (List.replicate 10 0)
      (List.replicate 20 0) (List.replicate 30 0) (by decide) (by decide) (by decide)
      (by decide) (by decide) (by decide) (by decide) (by decide)⟩

end frand
